import Mathlib

/-!
Verification of the buffalo collaboration controller against its
natural-language specification.

The development shallowly embeds the relevant source modules:

* `Buffalo.Guard` — `src/command-guard.ts` (`splitCommand`, `checkCommand`);
* `Buffalo.Batch` — `src/batch.ts` (directive extraction and stripping);
* `Buffalo.Session` — the session store (`session-store.ts`), the CLI
  runner's `monitorSession`/`handleApproval`, and the poller's pure
  session-record transitions.

Strings are modelled as `List Char` internally; the JavaScript regular
expressions used by the source are compiled by hand into executable
scanners with the exact leftmost-match / greedy-with-backtracking
semantics of the originals.
-/

namespace Buffalo
namespace Guard

/-- The character class matched by `\s` in a JavaScript regular expression
(and trimmed by `String.prototype.trim`). -/
def isJsSpace (c : Char) : Bool :=
  c == ' ' || c == '\t' || c == '\n' || c == '\r' || c == '\u000B' || c == '\u000C' ||
  c == '\u00A0' || c == '\u1680' || (0x2000 ≤ c.toNat && c.toNat ≤ 0x200A) ||
  c == '\u2028' || c == '\u2029' || c == '\u202F' || c == '\u205F' ||
  c == '\u3000' || c == '\uFEFF'

/-- JavaScript line terminators: the characters *not* matched by `.` and
recognised by the `m` flag for `^`/`$`. -/
def isLineTerm (c : Char) : Bool :=
  c == '\n' || c == '\r' || c == '\u2028' || c == '\u2029'

/-- `String.prototype.trim`: drop `\s` characters from both ends. -/
def trimL (s : List Char) : List Char :=
  ((s.dropWhile isJsSpace).reverse.dropWhile isJsSpace).reverse

/-- The internal marker `command-guard.ts` wraps around subshell bodies. -/
def subcmdMarker : List Char := "__SUBCMD__".data

/-- Does `pat` occur as a contiguous substring of the second argument? -/
def containsSub (pat : List Char) : List Char → Bool
  | [] => pat.isEmpty
  | c :: rest => pat.isPrefixOf (c :: rest) || containsSub pat rest

/-- The global replace `cmd.replace(/\$\(([^)]+)\)/g, ...)`, fuelled for
structural recursion: each `$(` followed by a nonempty run of non-`)`
characters and a closing `)` is rewritten to `__SUBCMD__` + inner +
`__SUBCMD__`; on a failed match the scan advances one character, exactly
as the JS regexp engine does.  The fuel is only a termination device:
every step consumes at least one character, so any fuel at least the
length of the input yields the same result (`replaceDollarGo_congr`). -/
def replaceDollarGo : Nat → List Char → List Char
  | _, [] => []
  | 0, s => s
  | fuel + 1, c :: rest =>
    if c = '$' ∧ rest.head? = some '(' ∧
        rest.tail.takeWhile (fun x => x ≠ ')') ≠ [] ∧
        rest.tail.dropWhile (fun x => x ≠ ')') ≠ [] then
      subcmdMarker ++ rest.tail.takeWhile (fun x => x ≠ ')') ++ subcmdMarker ++
        replaceDollarGo fuel (rest.tail.dropWhile (fun x => x ≠ ')')).tail
    else c :: replaceDollarGo fuel rest

def replaceDollar (s : List Char) : List Char := replaceDollarGo s.length s

/-- The global replace for backtick subshells, with the same scanning
discipline (and the same fuel device) as `replaceDollarGo`. -/
def replaceBacktickGo : Nat → List Char → List Char
  | _, [] => []
  | 0, s => s
  | fuel + 1, c :: rest =>
    if c = '`' ∧ rest.takeWhile (fun x => x ≠ '`') ≠ [] ∧
        rest.dropWhile (fun x => x ≠ '`') ≠ [] then
      subcmdMarker ++ rest.takeWhile (fun x => x ≠ '`') ++ subcmdMarker ++
        replaceBacktickGo fuel (rest.dropWhile (fun x => x ≠ '`')).tail
    else c :: replaceBacktickGo fuel rest

def replaceBacktick (s : List Char) : List Char := replaceBacktickGo s.length s

/-- Length of the separator token (`&&`, `||`, `;`, `|`) at the head of a
list, alternation tried in the source order of the split regexp. -/
def sepTokLen (s : List Char) : Option Nat :=
  if s.head? = some '&' ∧ s.tail.head? = some '&' then some 2
  else if s.head? = some '|' ∧ s.tail.head? = some '|' then some 2
  else if s.head? = some ';' then some 1
  else if s.head? = some '|' then some 1
  else none

/-- Attempt of the split regexp `\s*(?:&&|\|\||[;|])\s*` at the head of
`s`: the leading `\s*` is effectively possessive (every alternative
starts with a non-space character), and the trailing `\s*` is greedy.
Returns the remainder after the match. -/
def sepMatch (s : List Char) : Option (List Char) :=
  match sepTokLen (s.dropWhile isJsSpace) with
  | some n => some (((s.dropWhile isJsSpace).drop n).dropWhile isJsSpace)
  | none => none

/-- `normalized.split(/\s*(?:&&|\|\||[;|])\s*/)` (fuelled): scan left to
right, cutting a piece at the leftmost position where `sepMatch`
succeeds. -/
def rawSplitGo : Nat → List Char → List Char → List (List Char)
  | _, [], acc => [acc.reverse]
  | 0, _, acc => [acc.reverse]
  | fuel + 1, c :: rest, acc =>
    match sepMatch (c :: rest) with
    | some rest2 => acc.reverse :: rawSplitGo fuel rest2 []
    | none => rawSplitGo fuel rest (c :: acc)

def rawSplitAux (s acc : List Char) : List (List Char) := rawSplitGo s.length s acc

def rawSplit (s : List Char) : List (List Char) := rawSplitAux s []

/-- `part.split("__SUBCMD__")` (fuelled): literal split on the marker,
leftmost non-overlapping occurrences. -/
def splitOnMarkerGo : Nat → List Char → List Char → List (List Char)
  | _, [], acc => [acc.reverse]
  | 0, _, acc => [acc.reverse]
  | fuel + 1, c :: rest, acc =>
    if subcmdMarker.isPrefixOf (c :: rest) then
      acc.reverse :: splitOnMarkerGo fuel ((c :: rest).drop subcmdMarker.length) []
    else
      splitOnMarkerGo fuel rest (c :: acc)

def splitOnMarkerAux (s acc : List Char) : List (List Char) :=
  splitOnMarkerGo s.length s acc

def splitOnMarker (s : List Char) : List (List Char) := splitOnMarkerAux s []

/-- `splitCommand` from `command-guard.ts`, on character lists: replace
`$(...)` and backtick subshell spans by marker-delimited bodies, split on
`&&`/`||`/`;`/`|`, then expand marker-bearing parts and keep the trimmed
nonempty fragments. -/
def splitCommandL (cmd : List Char) : List (List Char) :=
  (rawSplit (replaceBacktick (replaceDollar cmd))).flatMap fun part =>
    if containsSub subcmdMarker part then
      (((splitOnMarker part).filter (fun p => !p.isEmpty)).map trimL).filter
        (fun t => !t.isEmpty)
    else if (trimL part).isEmpty then [] else [trimL part]

/-- `splitCommand` on strings (the exported signature of the source). -/
def splitCommand (cmd : String) : List String :=
  (splitCommandL cmd.data).map fun l => ⟨l⟩

/-- A whitelist entry as `checkCommand` consumes it: `new RegExp(pat)`
either throws (`none`, a malformed pattern) or yields a matcher on
fragments.  The regexp engine itself is external to the repository, so a
compiled pattern is abstracted as its matching function. -/
abbrev Pattern := Option (String → Bool)

/-- One entry of the `patterns.some(...)` test in `checkCommand`: the
`try`/`catch` around `new RegExp(pat).test(part)` makes a malformed
pattern match nothing instead of raising. -/
def patMatches (pat : Pattern) (part : String) : Bool :=
  match pat with
  | some test => test part
  | none => false

structure CheckResult where
  approved : Bool
  failedPart : Option String := none
deriving DecidableEq, Repr

/-- The fragment loop of `checkCommand`: the first fragment matched by no
pattern rejects immediately and is reported as `failedPart`. -/
def checkParts (patterns : List Pattern) : List String → CheckResult
  | [] => { approved := true }
  | part :: rest =>
    if patterns.any (fun pat => patMatches pat part) then
      checkParts patterns rest
    else
      { approved := false, failedPart := some part }

/-- `checkCommand` from `command-guard.ts` (the whitelist load is passed
in as the resolved pattern list). -/
def checkCommand (patterns : List Pattern) (command : String) : CheckResult :=
  checkParts patterns (splitCommand command)

/-- A fragment is free of the split separators: no `;`, no `|`, and no
adjacent `&&`. -/
def sepFreeB (f : List Char) : Bool :=
  f.all (fun c => c ≠ ';' && c ≠ '|') && !containsSub ['&', '&'] f

/-- The shape `splitCommand` guarantees for each returned fragment:
nonempty, trimmed, separator-free. -/
def fragOk (f : List Char) : Bool :=
  !f.isEmpty && (trimL f == f) && sepFreeB f

/-- A command with no `$(`, no backtick, and no occurrence of the
internal marker text. -/
def subshellFree (s : List Char) : Bool :=
  !containsSub ['$', '('] s && !containsSub ['`'] s && !containsSub subcmdMarker s

/-- The text `String.intercalate " && "` builds after the first
fragment. -/
def joinRest : List (List Char) → List Char
  | [] => []
  | f :: fs => ' ' :: '&' :: '&' :: ' ' :: (f ++ joinRest fs)

/-- Fragments joined with the separator `" && "`, on character lists. -/
def joinFrags : List (List Char) → List Char
  | [] => []
  | f :: fs => f ++ joinRest fs

end Guard
end Buffalo

namespace Buffalo
namespace Batch

open Guard (isJsSpace isLineTerm trimL containsSub)

/-- Case-insensitive literal prefix match (the `i` flag of the directive
regexps); returns the remainder after the prefix. -/
def stripPrefixCI : List Char → List Char → Option (List Char)
  | [], s => some s
  | _ :: _, [] => none
  | p :: ps, c :: cs => if p.toLower = c.toLower then stripPrefixCI ps cs else none

/-- The optional numbered-list head `\d+\.\s*` of `LIST_PREFIX`: one or
more digits, a dot, then greedy whitespace (which, in a JS regexp, may
cross newlines).  Backtracking inside it can never help a following
keyword (keywords start with letters), so it is effectively possessive. -/
def afterListNum (s : List Char) : Option (List Char) :=
  if (s.takeWhile Char.isDigit).isEmpty then none
  else
    match s.dropWhile Char.isDigit with
    | '.' :: r => some (r.dropWhile isJsSpace)
    | _ => none

/-- `(?:\d+\.\s*)?` + a case-insensitive keyword: the regexp tries the
prefixed form first, then falls back to the bare keyword at the same
position. -/
def tryKeyword (kw : List Char) (s : List Char) : Option (List Char) :=
  ((afterListNum s).bind fun s2 => stripPrefixCI kw s2) <|> stripPrefixCI kw s

/-- `\s*(.+)$` with JS semantics: greedy `\s*` (which may cross line
terminators), then at least one non-line-terminator character up to the
end of a line; if everything remaining is whitespace, `\s*` backtracks so
that the last non-line-terminator whitespace character becomes the
capture.  Returns the capture and the remainder after the match. -/
def matchTail (s : List Char) : Option (List Char × List Char) :=
  if (s.dropWhile isJsSpace).isEmpty then
    match s.reverse.dropWhile isLineTerm with
    | c :: _ => some ([c], (s.reverse.takeWhile isLineTerm).reverse)
    | [] => none
  else
    some ((s.dropWhile isJsSpace).takeWhile (fun c => !isLineTerm c),
      (s.dropWhile isJsSpace).dropWhile (fun c => !isLineTerm c))

/-- Suffixes of `s` that start just after a line terminator: with the `m`
flag these are the positions (besides the start) where `^` matches. -/
def tailsAfterTerm : List Char → List (List Char)
  | [] => []
  | c :: rest =>
    if isLineTerm c then rest :: tailsAfterTerm rest else tailsAfterTerm rest

/-- All positions where `^` matches under the `m` flag, leftmost first. -/
def lineStarts (s : List Char) : List (List Char) := s :: tailsAfterTerm s

/-- The suffix starting just after the next line terminator. -/
def nextLineStart : List Char → Option (List Char)
  | [] => none
  | c :: rest => if isLineTerm c then some rest else nextLineStart rest

/-- First match of `^(?:\d+\.\s*)?KW\s*(.+)$` (flags `im`) over the whole
response: try each line start left to right; the captured group is
trimmed as the extractors do. -/
def matchKeywordLine (kw : List Char) (s : List Char) : Option (List Char) :=
  ((lineStarts s).findSome? fun c => (tryKeyword kw c).bind matchTail).map
    fun pr => trimL pr.1

/-- `extractCommitMessage` from `batch.ts`: `response.match(/^(?:\d+\.\s*)?
COMMIT:\s*(.+)$/im)`, then `match?.[1]?.trim() ?? null`.  A falsy response
(null or the empty string) short-circuits to null. -/
def extractCommitMessage (response : Option String) : Option String :=
  match response with
  | none => none
  | some r =>
    if r.data.isEmpty then none
    else
      match matchKeywordLine "COMMIT:".data r.data with
      | some t => some ⟨t⟩
      | none => none

/-- The quote/backtick characters stripped around a clarification answer. -/
def isQuoteTick (c : Char) : Bool := c == '"' || c == '\'' || c == '`'

/-- `raw.replace(/^["'`]+|["'`]+$/g, "")`: remove the leading and the
trailing run of quotes/backticks. -/
def stripQuoteRuns (raw : List Char) : List Char :=
  (((raw.dropWhile isQuoteTick).reverse).dropWhile isQuoteTick).reverse

/-- Lowercase, strip a trailing run of `.`/`!`, and trim — the
normalisation applied before the placeholder comparison. -/
def normalizeAnswer (cleaned : List Char) : List Char :=
  trimL (((cleaned.map Char.toLower).reverse.dropWhile
    (fun c => c == '.' || c == '!')).reverse)

/-- The recognized placeholder answers of `extractClarification`. -/
def clarPlaceholders : List String :=
  ["none", "n/a", "na", "no", "null", "nil", "none needed", "not needed",
   "no clarification", "no clarification needed", "no question", "no questions"]

/-- `extractClarification` from `batch.ts`: match the directive line, trim
the answer, strip surrounding quotes/backticks, and treat a recognized
placeholder (compared lowercase, without trailing `.`/`!`) as absent. -/
def extractClarification (response : Option String) : Option String :=
  match response with
  | none => none
  | some r =>
    if r.data.isEmpty then none
    else
      match matchKeywordLine "CLARIFICATION_NEEDED:".data r.data with
      | none => none
      | some raw =>
        if raw.isEmpty then none
        else
          if (trimL (stripQuoteRuns raw)).isEmpty then none
          else
            if clarPlaceholders.contains ⟨normalizeAnswer (trimL (stripQuoteRuns raw))⟩
            then none
            else some ⟨trimL (stripQuoteRuns raw)⟩

def digitsToNat (ds : List Char) : Nat :=
  ds.foldl (fun n c => n * 10 + (c.toNat - 48)) 0

/-- `RESPONSE\[(\d+)\]:` after the optional list prefix; returns the
parsed id and the remainder after the colon. -/
def tryResponseCore (s2 : List Char) : Option (Nat × List Char) :=
  (stripPrefixCI "RESPONSE[".data s2).bind fun r =>
    if (r.takeWhile Char.isDigit).isEmpty then none
    else
      match r.dropWhile Char.isDigit with
      | ']' :: ':' :: rest => some (digitsToNat (r.takeWhile Char.isDigit), rest)
      | _ => none

def tryResponseHead (s : List Char) : Option (Nat × List Char) :=
  ((afterListNum s).bind fun s2 => tryResponseCore s2) <|> tryResponseCore s

/-- One attempted match of the full RESPONSE directive at a line start. -/
def tryResponseFull (s : List Char) : Option (Nat × List Char × List Char) :=
  (tryResponseHead s).bind fun pr =>
    (matchTail pr.2).map fun tl => (pr.1, tl.1, tl.2)

/-- `Map.set` semantics on an insertion-ordered association list: an
existing key is updated in place, a new key is appended. -/
def mapSet (m : List (Nat × String)) (k : Nat) (v : String) : List (Nat × String) :=
  if m.any (fun p => p.1 == k) then
    m.map fun p => if p.1 == k then (k, v) else p
  else m ++ [(k, v)]

/-- The `pattern.exec` loop of `extractPerCommentResponses` (flags `gim`):
successive matches from successive line starts; an empty-after-trim
capture is skipped; the fuel only bounds the scan (every step consumes at
least one character). -/
def respScanGo : Nat → List Char → List (Nat × String) → List (Nat × String)
  | 0, _, acc => acc
  | fuel + 1, s, acc =>
    match tryResponseFull s with
    | some (id, t, rest) =>
      let acc2 := if (trimL t).isEmpty then acc else mapSet acc id ⟨trimL t⟩
      match nextLineStart rest with
      | some s2 => respScanGo fuel s2 acc2
      | none => acc2
    | none =>
      match nextLineStart s with
      | some s2 => respScanGo fuel s2 acc
      | none => acc

/-- `extractPerCommentResponses` from `batch.ts`: the resulting map as an
insertion-ordered association list, `none` when no entry was collected. -/
def extractPerCommentResponses (response : Option String) :
    Option (List (Nat × String)) :=
  match response with
  | none => none
  | some r =>
    if r.data.isEmpty then none
    else
      if (respScanGo (r.data.length + 1) r.data []).isEmpty then none
      else some (respScanGo (r.data.length + 1) r.data [])

/-- The `.test` of the directive pattern on a single line (no `m` flag:
anchored at the line's start): an optional `\d+\.\s*` prefix, then one of
the five directive keywords and a colon. -/
def keywordColon (s : List Char) : Bool :=
  (stripPrefixCI "COMMIT:".data s).isSome ||
  (stripPrefixCI "CLARIFICATION_NEEDED:".data s).isSome ||
  (stripPrefixCI "BRANCH_NAME:".data s).isSome ||
  (stripPrefixCI "PR_TITLE:".data s).isSome ||
  (match stripPrefixCI "RESPONSE[".data s with
   | some r =>
     !(r.takeWhile Char.isDigit).isEmpty &&
       (match r.dropWhile Char.isDigit with
        | ']' :: ':' :: _ => true
        | _ => false)
   | none => false)

def directiveTest (line : List Char) : Bool :=
  keywordColon line ||
    (match afterListNum line with
     | some r => keywordColon r
     | none => false)

/-- `bulletPat = /^\d+\.\s+/`. -/
def bulletTest (line : List Char) : Bool :=
  !(line.takeWhile Char.isDigit).isEmpty &&
    (match line.dropWhile Char.isDigit with
     | '.' :: c :: _ => isJsSpace c
     | _ => false)

/-- `l.replace(bulletPat, "")`: strip the numeral, dot and following
whitespace when the line is a numbered bullet. -/
def stripBullet (line : List Char) : List Char :=
  if bulletTest line then
    ((line.dropWhile Char.isDigit).tail).dropWhile isJsSpace
  else line

/-- `response.split("\n")` (literal split on the newline character). -/
def splitNlGo : List Char → List Char → List (List Char)
  | [], acc => [acc.reverse]
  | c :: rest, acc =>
    if c = '\n' then acc.reverse :: splitNlGo rest [] else splitNlGo rest (c :: acc)

def splitLines (s : List Char) : List (List Char) := splitNlGo s []

/-- The line-filtering stage of `stripDirectives`: drop every line the
directive pattern matches. -/
def filteredLines (s : List Char) : List (List Char) :=
  (splitLines s).filter fun l => !directiveTest l

/-- `stripDirectives` from `batch.ts`: drop directive lines, un-number a
lone surviving bullet, re-join and trim; an empty result is null. -/
def stripDirectives (response : Option String) : Option String :=
  match response with
  | none => none
  | some r =>
    if r.data.isEmpty then none
    else
      if (trimL (List.intercalate ['\n']
          (if ((filteredLines r.data).filter bulletTest).length = 1 then
            (filteredLines r.data).map stripBullet
          else filteredLines r.data))).isEmpty then none
      else
        some ⟨trimL (List.intercalate ['\n']
          (if ((filteredLines r.data).filter bulletTest).length = 1 then
            (filteredLines r.data).map stripBullet
          else filteredLines r.data))⟩

end Batch
end Buffalo

namespace Buffalo
namespace Poller

/-- The reconciliation decision the poller takes for a completed session's
final response (poller.ts: the clarification check, then the commit
message with its generic fallback). -/
inductive ReconcileAction where
  | clarify (question : String)
  | commit (message : String)
deriving DecidableEq, Repr

/-- The default commit message used when the response carries no COMMIT
directive. -/
def fallbackCommitMessage (prNumber : Nat) : String :=
  "buffalo: address PR #" ++ toString prNumber ++ " feedback"

def reconcileDecision (response : Option String) (prNumber : Nat) : ReconcileAction :=
  match Batch.extractClarification response with
  | some q => .clarify q
  | none => .commit ((Batch.extractCommitMessage response).getD
      (fallbackCommitMessage prNumber))

end Poller
end Buffalo

namespace Buffalo
namespace Session

/-- `session-store.ts`: session status values. -/
inductive SessionStatus where
  | running
  | waiting_approval
  | waiting_clarification
  | completed
  | paused
deriving DecidableEq, Repr

structure PendingApproval where
  command : String
  failedPart : String
  commentId : Option Nat
deriving DecidableEq, Repr

structure PendingClarification where
  question : String
  commentId : Nat
deriving DecidableEq, Repr

structure TriggerComment where
  user : String
  body : String
deriving DecidableEq, Repr

/-- `SessionInfo` of `session-store.ts`; the optional fields are `Option`s. -/
structure SessionInfo where
  branch : String
  prNumber : Nat
  commentIds : List Nat
  triggerComments : Option (List TriggerComment)
  status : SessionStatus
  logOffset : Nat
  pendingApproval : Option PendingApproval
  pendingClarification : Option PendingClarification
deriving DecidableEq, Repr

/-- `sessions.json`: `Record<string, SessionInfo>` keyed by branch, as an
insertion-ordered association list (JS object: an existing key is updated
in place, a new key is appended). -/
abbrev Store := List (String × SessionInfo)

def getSession (st : Store) (branch : String) : Option SessionInfo :=
  (st.find? fun p => p.1 == branch).map Prod.snd

def setSession (st : Store) (branch : String) (info : SessionInfo) : Store :=
  if st.any fun p => p.1 == branch then
    st.map fun p => if p.1 == branch then (branch, info) else p
  else st ++ [(branch, info)]

def removeSession (st : Store) (branch : String) : Store :=
  st.filter fun p => p.1 != branch

/-- `pauseSession`: any existing session is set to `paused` (no guard on
its current status) and `true` is returned; otherwise `false`. -/
def pauseSession (st : Store) (branch : String) : Store × Bool :=
  match getSession st branch with
  | none => (st, false)
  | some session => (setSession st branch { session with status := .paused }, true)

/-- `resumeSession`: only a `paused` session is set back to `running`. -/
def resumeSession (st : Store) (branch : String) : Store × Bool :=
  match getSession st branch with
  | none => (st, false)
  | some session =>
    if session.status = SessionStatus.paused then
      (setSession st branch { session with status := .running }, true)
    else (st, false)

/-- `resume-state.json`: the `resumableBranches` list. -/
abbrev ResumeState := List String

/-- Doc comment in `session-store.ts`: "Returns true if the last session
on this branch ended without a commit push." -/
def shouldResumeBranch (rs : ResumeState) (branch : String) : Bool :=
  rs.contains branch

/-- "Mark a branch as having an unresolved session (no commit was
pushed)": appended unless already present. -/
def markBranchResumable (rs : ResumeState) (branch : String) : ResumeState :=
  if rs.contains branch then rs else rs ++ [branch]

/-- "Clear resume state for a branch (commit was pushed, or session
failed)": `indexOf`/`splice` removes the first occurrence. -/
def clearBranchResumable (rs : ResumeState) (branch : String) : ResumeState :=
  rs.erase branch

/-- `cli-runner.ts` `handleApproval` actions. -/
inductive ApprovalAction where
  | allow_once
  | allow_always
  | deny
deriving DecidableEq, Repr

/-- `handleApproval` from `cli-runner.ts`: its effect on the session
store.  The key strokes, history entries and (for `allow_always`) the
whitelist update act outside the store; whatever the action, the session
returns to `running` with `pendingApproval` cleared, and nothing happens
without a session holding a pending approval. -/
def handleApproval (st : Store) (branch : String) (_action : ApprovalAction)
    (_pat : Option String) : Store :=
  match getSession st branch with
  | none => st
  | some session =>
    match session.pendingApproval with
    | none => st
    | some _ =>
      setSession st branch { session with status := .running, pendingApproval := none }

def cmdQuote (c : Char) : Bool := c == '`' || c == '"'

/-- `newContent.match(/[`"]([^`"]+)[`"]/)`: the first span of one or more
non-quote characters enclosed by backticks/double quotes (either may
close either); on failure the scan advances one character. -/
def cmdQuoteScan : List Char → Option (List Char)
  | [] => none
  | c :: rest =>
    if cmdQuote c = true ∧ (rest.takeWhile fun x => !cmdQuote x) ≠ [] ∧
        (rest.dropWhile fun x => !cmdQuote x) ≠ [] then
      some (rest.takeWhile fun x => !cmdQuote x)
    else cmdQuoteScan rest

/-- The `tool` part of `/Allow .+ tool/i` (on lowercased text): either
`" tool"` starts here, or the head is consumed by `.+` (so it must not be
a line terminator) and the search continues. -/
def toolSearch : List Char → Bool
  | [] => false
  | c :: rest =>
    List.isPrefixOf " tool".data (c :: rest) || (!Guard.isLineTerm c && toolSearch rest)

/-- `/Allow .+ tool/i` on lowercased text: an occurrence of `"allow "`
followed by at least one non-line-terminator character and then
`" tool"` on the same line. -/
def allowToolScan : List Char → Bool
  | [] => false
  | c :: rest =>
    (List.isPrefixOf "allow ".data (c :: rest) &&
      match rest.drop 5 with
      | [] => false
      | d :: rest2 => !Guard.isLineTerm d && toolSearch rest2) ||
    allowToolScan rest

/-- `APPROVAL_PATTERNS.some(p => p.test(newContent))`: the seven `i`-flag
regexes of `cli-runner.ts`, compiled over the lowercased text.
`(run|execute)` makes the first one two substring tests; all but
`/Allow .+ tool/i` are plain substring tests. -/
def approvalDetected (newContent : String) : Bool :=
  let ls := newContent.data.map Char.toLower
  Guard.containsSub "do you want to run".data ls ||
  Guard.containsSub "do you want to execute".data ls ||
  Guard.containsSub "allow this command".data ls ||
  Guard.containsSub "? (y/n)".data ls ||
  Guard.containsSub "press enter to approve".data ls ||
  Guard.containsSub "permission to run".data ls ||
  Guard.containsSub "wants to execute".data ls ||
  allowToolScan ls

/-- The session-store writes of `monitorSession` (`cli-runner.ts`).
`logExists` is `fs.existsSync(log)`, `content` the log file's content and
`newCommentId` the id `postComment` returns for the escalation comment;
tmux key strokes, the posted comment, history entries and the returned
status are effects outside the store.  A missing or paused session, or a
missing log, leaves the store untouched; otherwise `logOffset` advances
to `content.length`, and when an approval prompt appears in the newly
read slice whose quoted command fails `checkCommand`, the session
escalates to `waiting_approval` in two `setSession` steps (the second
adds the comment id), exactly as in the source. -/
def monitorSessionStore (patterns : List Guard.Pattern) (st : Store) (branch : String)
    (logExists : Bool) (content : String) (newCommentId : Nat) : Store :=
  match getSession st branch with
  | none => st
  | some session =>
    if session.status = SessionStatus.paused then st
    else if logExists = false then st
    else
      let newContent : String := ⟨content.data.drop session.logOffset⟩
      let session2 := { session with logOffset := content.data.length }
      let st2 := setSession st branch session2
      if approvalDetected newContent then
        let command : String :=
          match cmdQuoteScan newContent.data with
          | some l => ⟨l⟩
          | none => "unknown command"
        let result := Guard.checkCommand patterns command
        if result.approved then st2
        else
          let pa1 : PendingApproval :=
            { command := command, failedPart := result.failedPart.getD command,
              commentId := none }
          let session3 := { session2 with
            status := SessionStatus.waiting_approval,
            pendingApproval := some pa1 }
          let st3 := setSession st2 branch session3
          let session4 := { session3 with
            pendingApproval := some { pa1 with commentId := some newCommentId } }
          setSession st3 branch session4
      else st2

/-- The monitor loop of `pollRepo` (`poller.ts`): sessions that are
`paused`, `waiting_approval` or `waiting_clarification` are skipped
before `monitorSession` runs. -/
def pollMonitorStep (patterns : List Guard.Pattern) (st : Store) (branch : String)
    (logExists : Bool) (content : String) (newCommentId : Nat) : Store :=
  match getSession st branch with
  | none => st
  | some session =>
    if session.status = SessionStatus.paused ∨
        session.status = SessionStatus.waiting_approval ∨
        session.status = SessionStatus.waiting_clarification then st
    else monitorSessionStore patterns st branch logExists content newCommentId

/-- `pollRepo`'s handling of a batch of new task comments for a branch
(poller.ts): a session waiting for clarification is resumed with a fresh
CLI run — its record is rebuilt with the merged comment ids and triggers,
status `running` and `logOffset: 0` — a running session only receives
the text as key strokes, and otherwise a fresh session record is written
(status `running`, `logOffset: 0`). -/
def newCommentsUpdate (st : Store) (branch : String) (prNumber : Nat)
    (newCommentIds : List Nat) (newTriggers : List TriggerComment) : Store :=
  let fresh : SessionInfo :=
    { branch := branch, prNumber := prNumber, commentIds := newCommentIds,
      triggerComments := some newTriggers, status := .running, logOffset := 0,
      pendingApproval := none, pendingClarification := none }
  match getSession st branch with
  | none => setSession st branch fresh
  | some existing =>
    if existing.status = SessionStatus.waiting_clarification ∧
        existing.pendingClarification ≠ none then
      setSession st branch
        { branch := branch, prNumber := prNumber,
          commentIds := existing.commentIds ++ newCommentIds,
          triggerComments := some (existing.triggerComments.getD [] ++ newTriggers),
          status := .running, logOffset := 0,
          pendingApproval := none, pendingClarification := none }
    else if existing.status = SessionStatus.running then st
    else setSession st branch fresh

/-- The fresh-session arm of `newCommentsUpdate` on its own. -/
def freshSession (st : Store) (branch : String) (prNumber : Nat)
    (commentIds : List Nat) (triggers : List TriggerComment) : Store :=
  setSession st branch
    { branch := branch, prNumber := prNumber, commentIds := commentIds,
      triggerComments := some triggers, status := .running, logOffset := 0,
      pendingApproval := none, pendingClarification := none }

/-- `pollRepo` when a completed session asked for clarification: the
session is kept, set to `waiting_clarification` with the question and the
id of the posted comment. -/
def setWaitingClarification (st : Store) (branch : String) (question : String)
    (commentId : Nat) : Store :=
  match getSession st branch with
  | none => st
  | some session =>
    setSession st branch
      { session with
        status := SessionStatus.waiting_clarification,
        pendingClarification := some { question := question, commentId := commentId } }

/-- The resume-state update at the end of `pollRepo`'s completion
handling (poller.ts lines 322-331): the branch is marked resumable iff a
reply was posted (`postedAny`); the pushed commit `sha`, although in
scope, is not consulted. -/
def completionResumeUpdate (postedAny : Bool) (_sha : Option String)
    (rs : ResumeState) (branch : String) : ResumeState :=
  if postedAny then markBranchResumable rs branch
  else clearBranchResumable rs branch

/-- `checkAndCleanupMergedPR`: a merged PR's session and resume flag are
both dropped. -/
def cleanupMergedPR (st : Store) (rs : ResumeState) (branch : String) :
    Store × ResumeState :=
  (removeSession st branch, clearBranchResumable rs branch)

/-- The C2 record invariant: a pending approval is present exactly in
status `waiting_approval`, a pending clarification exactly in status
`waiting_clarification`. -/
def sessionInvB (s : SessionInfo) : Bool :=
  (s.pendingApproval.isSome == (s.status == SessionStatus.waiting_approval)) &&
  (s.pendingClarification.isSome == (s.status == SessionStatus.waiting_clarification))

/-- The C2 store invariant: every record satisfies `sessionInvB` and the
registry holds at most one session per branch. -/
def storeInv (st : Store) : Prop :=
  (∀ p ∈ st, sessionInvB p.2 = true) ∧ (st.map Prod.fst).Nodup

instance storeInvDecidable (st : Store) : Decidable (storeInv st) := by
  unfold storeInv
  infer_instance

end Session
end Buffalo

namespace Buffalo.Claims

open Buffalo.Guard

open Buffalo.Batch

open Buffalo.Poller

open Buffalo.Session

/-- A two-entry whitelist semantics used to instantiate the claim-1
theorems concretely (realisable as the regexp `^(git status|ls)$`). -/
def gitLsPatterns : List Pattern := [some (fun f => f == "git status" || f == "ls")]

/-- A whitelist semantics realisable as the regexp `^(echo|hi)$`. -/
def echoHiPatterns : List Pattern := [some (fun f => f == "echo" || f == "hi")]

/-- The synthetic agent reply of the round-trip scenario. -/
def sampleReply : String := "Thanks!\nCOMMIT: fix: x\nRESPONSE[7]: ok\nAll done."

/-- A reply whose only surviving line after directive-stripping is a
single numbered bullet. -/
def sampleBulletReply : String := "1. COMMIT: fix: x\n2. did the thing"

end Buffalo.Claims

namespace Buffalo
namespace Guard

theorem replaceDollarGo_nil (fuel : Nat) : replaceDollarGo fuel [] = [] := by
  cases fuel <;> rfl

theorem replaceDollarGo_succ_cons (fuel : Nat) (c : Char) (rest : List Char) :
    replaceDollarGo (fuel + 1) (c :: rest) =
      if c = '$' ∧ rest.head? = some '(' ∧
          rest.tail.takeWhile (fun x => x ≠ ')') ≠ [] ∧
          rest.tail.dropWhile (fun x => x ≠ ')') ≠ [] then
        subcmdMarker ++ rest.tail.takeWhile (fun x => x ≠ ')') ++ subcmdMarker ++
          replaceDollarGo fuel (rest.tail.dropWhile (fun x => x ≠ ')')).tail
      else c :: replaceDollarGo fuel rest := rfl

theorem replaceBacktickGo_nil (fuel : Nat) : replaceBacktickGo fuel [] = [] := by
  cases fuel <;> rfl

theorem replaceBacktickGo_succ_cons (fuel : Nat) (c : Char) (rest : List Char) :
    replaceBacktickGo (fuel + 1) (c :: rest) =
      if c = '`' ∧ rest.takeWhile (fun x => x ≠ '`') ≠ [] ∧
          rest.dropWhile (fun x => x ≠ '`') ≠ [] then
        subcmdMarker ++ rest.takeWhile (fun x => x ≠ '`') ++ subcmdMarker ++
          replaceBacktickGo fuel (rest.dropWhile (fun x => x ≠ '`')).tail
      else c :: replaceBacktickGo fuel rest := rfl

theorem length_two_of_heads {u : List Char} {a b : Char} (h1 : u.head? = some a)
    (h2 : u.tail.head? = some b) : 2 ≤ u.length := by
  cases u with
  | nil => exact Option.noConfusion h1
  | cons c t =>
    cases t with
    | nil => exact Option.noConfusion h2
    | cons d t2 => simp only [List.length_cons]; omega

theorem length_one_of_head {u : List Char} {a : Char} (h1 : u.head? = some a) :
    1 ≤ u.length := by
  cases u with
  | nil => exact Option.noConfusion h1
  | cons c t => simp only [List.length_cons]; omega

theorem sepTokLen_bounds {u : List Char} {n : Nat} (h : sepTokLen u = some n) :
    1 ≤ n ∧ n ≤ u.length := by
  unfold sepTokLen at h
  split at h
  · injection h with h
    subst h
    rename_i hcond
    exact ⟨by omega, length_two_of_heads hcond.1 hcond.2⟩
  · split at h
    · injection h with h
      subst h
      rename_i hcond
      exact ⟨by omega, length_two_of_heads hcond.1 hcond.2⟩
    · split at h
      · injection h with h
        subst h
        rename_i hcond
        exact ⟨by omega, length_one_of_head hcond⟩
      · split at h
        · injection h with h
          subst h
          rename_i hcond
          exact ⟨by omega, length_one_of_head hcond⟩
        · exact Option.noConfusion h

theorem sepMatch_length {s r : List Char} (h : sepMatch s = some r) :
    r.length < s.length := by
  unfold sepMatch at h
  split at h
  · rename_i n htok
    injection h with h
    subst h
    obtain ⟨hn, hnl⟩ := sepTokLen_bounds htok
    have h1 : (((s.dropWhile isJsSpace).drop n).dropWhile isJsSpace).length ≤
        ((s.dropWhile isJsSpace).drop n).length :=
      (List.dropWhile_suffix _).length_le
    have h2 : ((s.dropWhile isJsSpace).drop n).length = (s.dropWhile isJsSpace).length - n :=
      List.length_drop _ _
    have h3 : (s.dropWhile isJsSpace).length ≤ s.length := (s.dropWhile_suffix _).length_le
    omega
  · exact Option.noConfusion h

theorem rawSplitGo_nil (fuel : Nat) (acc : List Char) :
    rawSplitGo fuel [] acc = [acc.reverse] := by
  cases fuel <;> rfl

theorem rawSplitGo_succ_cons (fuel : Nat) (c : Char) (rest acc : List Char) :
    rawSplitGo (fuel + 1) (c :: rest) acc =
      match sepMatch (c :: rest) with
      | some rest2 => acc.reverse :: rawSplitGo fuel rest2 []
      | none => rawSplitGo fuel rest (c :: acc) := rfl

theorem splitOnMarkerGo_nil (fuel : Nat) (acc : List Char) :
    splitOnMarkerGo fuel [] acc = [acc.reverse] := by
  cases fuel <;> rfl

theorem splitOnMarkerGo_succ_cons (fuel : Nat) (c : Char) (rest acc : List Char) :
    splitOnMarkerGo (fuel + 1) (c :: rest) acc =
      if subcmdMarker.isPrefixOf (c :: rest) then
        acc.reverse :: splitOnMarkerGo fuel ((c :: rest).drop subcmdMarker.length) []
      else
        splitOnMarkerGo fuel rest (c :: acc) := rfl

/-- Fuel irrelevance for `replaceDollarGo`. -/
theorem replaceDollarGo_congr :
    ∀ fuel fuel' s, s.length ≤ fuel → s.length ≤ fuel' →
      replaceDollarGo fuel s = replaceDollarGo fuel' s := by
  intro fuel
  induction fuel with
  | zero =>
    intro fuel' s hs _
    have : s = [] := List.eq_nil_of_length_eq_zero (Nat.le_zero.mp hs)
    subst this
    cases fuel' <;> rfl
  | succ f ih =>
    intro fuel' s hs hs'
    cases s with
    | nil => cases fuel' <;> rfl
    | cons c rest =>
      cases fuel' with
      | zero => simp at hs'
      | succ f' =>
        simp only [List.length_cons, Nat.add_le_add_iff_right] at hs hs'
        rw [replaceDollarGo_succ_cons f, replaceDollarGo_succ_cons f']
        by_cases hcond : c = '$' ∧ rest.head? = some '(' ∧
            rest.tail.takeWhile (fun x => x ≠ ')') ≠ [] ∧
            rest.tail.dropWhile (fun x => x ≠ ')') ≠ []
        · simp only [if_pos hcond]
          have h1 : (rest.tail.dropWhile (fun x => x ≠ ')')).length ≤ rest.tail.length :=
            (rest.tail.dropWhile_suffix _).length_le
          have h2 := List.length_tail (rest.tail.dropWhile (fun x => x ≠ ')'))
          have h3 := List.length_tail rest
          rw [ih f' ((rest.tail.dropWhile (fun x => x ≠ ')')).tail) (by omega) (by omega)]
        · simp only [if_neg hcond]
          rw [ih f' rest hs hs']

/-- Fuel irrelevance for `replaceBacktickGo`. -/
theorem replaceBacktickGo_congr :
    ∀ fuel fuel' s, s.length ≤ fuel → s.length ≤ fuel' →
      replaceBacktickGo fuel s = replaceBacktickGo fuel' s := by
  intro fuel
  induction fuel with
  | zero =>
    intro fuel' s hs _
    have : s = [] := List.eq_nil_of_length_eq_zero (Nat.le_zero.mp hs)
    subst this
    cases fuel' <;> rfl
  | succ f ih =>
    intro fuel' s hs hs'
    cases s with
    | nil => cases fuel' <;> rfl
    | cons c rest =>
      cases fuel' with
      | zero => simp at hs'
      | succ f' =>
        simp only [List.length_cons, Nat.add_le_add_iff_right] at hs hs'
        rw [replaceBacktickGo_succ_cons f, replaceBacktickGo_succ_cons f']
        by_cases hcond : c = '`' ∧ rest.takeWhile (fun x => x ≠ '`') ≠ [] ∧
            rest.dropWhile (fun x => x ≠ '`') ≠ []
        · simp only [if_pos hcond]
          have h1 : (rest.dropWhile (fun x => x ≠ '`')).length ≤ rest.length :=
            (rest.dropWhile_suffix _).length_le
          have h2 := List.length_tail (rest.dropWhile (fun x => x ≠ '`'))
          rw [ih f' ((rest.dropWhile (fun x => x ≠ '`')).tail) (by omega) (by omega)]
        · simp only [if_neg hcond]
          rw [ih f' rest hs hs']

/-- Fuel irrelevance for `rawSplitGo`. -/
theorem rawSplitGo_congr :
    ∀ fuel fuel' s acc, s.length ≤ fuel → s.length ≤ fuel' →
      rawSplitGo fuel s acc = rawSplitGo fuel' s acc := by
  intro fuel
  induction fuel with
  | zero =>
    intro fuel' s acc hs _
    have : s = [] := List.eq_nil_of_length_eq_zero (Nat.le_zero.mp hs)
    subst this
    cases fuel' <;> rfl
  | succ f ih =>
    intro fuel' s acc hs hs'
    cases s with
    | nil => cases fuel' <;> rfl
    | cons c rest =>
      cases fuel' with
      | zero => simp at hs'
      | succ f' =>
        simp only [List.length_cons, Nat.add_le_add_iff_right] at hs hs'
        rw [rawSplitGo_succ_cons f, rawSplitGo_succ_cons f']
        cases hsep : sepMatch (c :: rest) with
        | some rest2 =>
          have := sepMatch_length hsep
          simp only [List.length_cons] at this
          simp only [hsep]
          rw [ih f' rest2 [] (by omega) (by omega)]
        | none =>
          simp only [hsep]
          rw [ih f' rest (c :: acc) hs hs']

/-- Fuel irrelevance for `splitOnMarkerGo`. -/
theorem splitOnMarkerGo_congr :
    ∀ fuel fuel' s acc, s.length ≤ fuel → s.length ≤ fuel' →
      splitOnMarkerGo fuel s acc = splitOnMarkerGo fuel' s acc := by
  intro fuel
  induction fuel with
  | zero =>
    intro fuel' s acc hs _
    have : s = [] := List.eq_nil_of_length_eq_zero (Nat.le_zero.mp hs)
    subst this
    cases fuel' <;> rfl
  | succ f ih =>
    intro fuel' s acc hs hs'
    cases s with
    | nil => cases fuel' <;> rfl
    | cons c rest =>
      cases fuel' with
      | zero => simp at hs'
      | succ f' =>
        simp only [List.length_cons, Nat.add_le_add_iff_right] at hs hs'
        rw [splitOnMarkerGo_succ_cons f, splitOnMarkerGo_succ_cons f']
        by_cases hpre : subcmdMarker.isPrefixOf (c :: rest) = true
        · simp only [hpre, if_true]
          have hdrop := List.length_drop subcmdMarker.length (c :: rest)
          have hm : subcmdMarker.length = 10 := by decide
          simp only [List.length_cons] at hdrop
          rw [ih f' ((c :: rest).drop subcmdMarker.length) [] (by omega) (by omega)]
        · simp only [hpre, if_false, Bool.false_eq_true]
          rw [ih f' rest (c :: acc) hs hs']

/-- One-step unfolding of `replaceDollar` at a cons cell (the equation of
the un-fuelled source function). -/
theorem replaceDollar_cons (c : Char) (rest : List Char) :
    replaceDollar (c :: rest) =
      if c = '$' ∧ rest.head? = some '(' ∧
          rest.tail.takeWhile (fun x => x ≠ ')') ≠ [] ∧
          rest.tail.dropWhile (fun x => x ≠ ')') ≠ [] then
        subcmdMarker ++ rest.tail.takeWhile (fun x => x ≠ ')') ++ subcmdMarker ++
          replaceDollar (rest.tail.dropWhile (fun x => x ≠ ')')).tail
      else c :: replaceDollar rest := by
  show replaceDollarGo (rest.length + 1) (c :: rest) = _
  rw [replaceDollarGo_succ_cons]
  by_cases hcond : c = '$' ∧ rest.head? = some '(' ∧
      rest.tail.takeWhile (fun x => x ≠ ')') ≠ [] ∧
      rest.tail.dropWhile (fun x => x ≠ ')') ≠ []
  · simp only [if_pos hcond]
    have h1 : (rest.tail.dropWhile (fun x => x ≠ ')')).length ≤ rest.tail.length :=
      (rest.tail.dropWhile_suffix _).length_le
    have h2 := List.length_tail (rest.tail.dropWhile (fun x => x ≠ ')'))
    have h3 := List.length_tail rest
    rw [replaceDollarGo_congr rest.length
      ((rest.tail.dropWhile (fun x => x ≠ ')')).tail).length _ (by omega) (by omega)]
    rfl
  · simp only [if_neg hcond]
    rfl

theorem replaceDollar_nil : replaceDollar [] = [] := rfl

/-- One-step unfolding of `replaceBacktick` at a cons cell. -/
theorem replaceBacktick_cons (c : Char) (rest : List Char) :
    replaceBacktick (c :: rest) =
      if c = '`' ∧ rest.takeWhile (fun x => x ≠ '`') ≠ [] ∧
          rest.dropWhile (fun x => x ≠ '`') ≠ [] then
        subcmdMarker ++ rest.takeWhile (fun x => x ≠ '`') ++ subcmdMarker ++
          replaceBacktick (rest.dropWhile (fun x => x ≠ '`')).tail
      else c :: replaceBacktick rest := by
  show replaceBacktickGo (rest.length + 1) (c :: rest) = _
  rw [replaceBacktickGo_succ_cons]
  by_cases hcond : c = '`' ∧ rest.takeWhile (fun x => x ≠ '`') ≠ [] ∧
      rest.dropWhile (fun x => x ≠ '`') ≠ []
  · simp only [if_pos hcond]
    have h1 : (rest.dropWhile (fun x => x ≠ '`')).length ≤ rest.length :=
      (rest.dropWhile_suffix _).length_le
    have h2 := List.length_tail (rest.dropWhile (fun x => x ≠ '`'))
    rw [replaceBacktickGo_congr rest.length
      ((rest.dropWhile (fun x => x ≠ '`')).tail).length _ (by omega) (by omega)]
    rfl
  · simp only [if_neg hcond]
    rfl

theorem replaceBacktick_nil : replaceBacktick [] = [] := rfl

/-- One-step unfolding of `rawSplitAux` at a cons cell. -/
theorem rawSplitAux_cons (c : Char) (rest acc : List Char) :
    rawSplitAux (c :: rest) acc =
      match sepMatch (c :: rest) with
      | some rest2 => acc.reverse :: rawSplitAux rest2 []
      | none => rawSplitAux rest (c :: acc) := by
  show rawSplitGo (rest.length + 1) (c :: rest) acc = _
  rw [rawSplitGo_succ_cons]
  cases hsep : sepMatch (c :: rest) with
  | some rest2 =>
    have := sepMatch_length hsep
    simp only [List.length_cons] at this
    simp only [hsep]
    rw [rawSplitGo_congr rest.length rest2.length rest2 [] (by omega) (by omega)]
    rfl
  | none =>
    simp only [hsep]
    rfl

theorem rawSplitAux_nil (acc : List Char) : rawSplitAux [] acc = [acc.reverse] := rfl

/-- One-step unfolding of `splitOnMarkerAux` at a cons cell. -/
theorem splitOnMarkerAux_cons (c : Char) (rest acc : List Char) :
    splitOnMarkerAux (c :: rest) acc =
      if subcmdMarker.isPrefixOf (c :: rest) then
        acc.reverse :: splitOnMarkerAux ((c :: rest).drop subcmdMarker.length) []
      else
        splitOnMarkerAux rest (c :: acc) := by
  show splitOnMarkerGo (rest.length + 1) (c :: rest) acc = _
  rw [splitOnMarkerGo_succ_cons]
  by_cases hpre : subcmdMarker.isPrefixOf (c :: rest) = true
  · simp only [hpre, if_true]
    have hdrop := List.length_drop subcmdMarker.length (c :: rest)
    have hm : subcmdMarker.length = 10 := by decide
    simp only [List.length_cons] at hdrop
    rw [splitOnMarkerGo_congr rest.length ((c :: rest).drop subcmdMarker.length).length
      ((c :: rest).drop subcmdMarker.length) [] (by omega) (by omega)]
    rfl
  · simp only [hpre, if_false, Bool.false_eq_true]
    rfl

theorem splitOnMarkerAux_nil (acc : List Char) : splitOnMarkerAux [] acc = [acc.reverse] := rfl

theorem checkParts_approved (patterns : List Pattern) (parts : List String) :
    (checkParts patterns parts).approved =
      parts.all (fun p => patterns.any (fun pat => patMatches pat p)) := by
  induction parts with
  | nil => rfl
  | cons p rest ih =>
    by_cases hp : patterns.any (fun pat => patMatches pat p) = true <;>
      simp [checkParts, hp, ih]

theorem checkParts_eq (patterns : List Pattern) (parts : List String) :
    checkParts patterns parts =
      match parts.find? (fun p => !patterns.any (fun pat => patMatches pat p)) with
      | none => { approved := true }
      | some p => { approved := false, failedPart := some p } := by
  induction parts with
  | nil => rfl
  | cons p rest ih =>
    by_cases hp : patterns.any (fun pat => patMatches pat p) = true
    · simp only [checkParts, hp, if_true, ih, List.find?]
      simp [hp]
    · simp only [Bool.not_eq_true] at hp
      simp [checkParts, hp, List.find?]

theorem containsSub_eq_true_iff (pat : List Char) :
    ∀ s : List Char, containsSub pat s = true ↔ pat <:+: s := by
  intro s
  induction s with
  | nil =>
    simp only [containsSub, List.isEmpty_iff, List.infix_nil]
  | cons c rest ih =>
    simp only [containsSub, Bool.or_eq_true, List.isPrefixOf_iff_prefix, ih,
      List.infix_cons_iff]

theorem containsSub_eq_false_of_infix {pat t s : List Char} (h : t <:+: s)
    (hs : containsSub pat s = false) : containsSub pat t = false := by
  by_contra hne
  have ht : containsSub pat t = true := by
    cases hcs : containsSub pat t with
    | true => rfl
    | false => exact absurd hcs hne
  have : containsSub pat s = true :=
    (containsSub_eq_true_iff pat s).mpr (((containsSub_eq_true_iff pat t).mp ht).trans h)
  rw [this] at hs
  exact Bool.noConfusion hs

/-- Gluing a two-character pattern across an append: if neither side
contains it and it does not straddle the boundary, the append does not
contain it. -/
theorem containsSub_pair_append {a b : Char} :
    ∀ {x : List Char} {y : List Char}, containsSub [a, b] x = false →
      containsSub [a, b] y = false →
      ¬(x.getLast? = some a ∧ y.head? = some b) →
      containsSub [a, b] (x ++ y) = false := by
  intro x
  induction x with
  | nil => intro y _ hy _; simpa using hy
  | cons c rest ih =>
    intro y hx hy hglue
    simp only [containsSub, Bool.or_eq_false_iff] at hx
    obtain ⟨hx1, hx2⟩ := hx
    simp only [List.cons_append, containsSub, Bool.or_eq_false_iff]
    constructor
    · cases rest with
      | nil =>
        cases y with
        | nil => simp [List.isPrefixOf]
        | cons d ys =>
          by_cases hac : a = c
          · by_cases hbd : b = d
            · exact absurd ⟨by simp [hac], by simp [hbd]⟩ hglue
            · simp [List.isPrefixOf, hbd]
          · simp [List.isPrefixOf, hac]
      | cons c2 rest2 =>
        simp only [List.isPrefixOf, Bool.and_eq_false_iff] at hx1 ⊢
        exact hx1
    · apply ih hx2 hy
      intro hpair
      obtain ⟨hlast, hhead⟩ := hpair
      apply hglue
      refine ⟨?_, hhead⟩
      cases rest with
      | nil => simp at hlast
      | cons c2 rest2 => simpa [List.getLast?_cons_cons] using hlast

theorem dropWhile_eq_self_of_length {p : Char → Bool} {l : List Char}
    (h : (l.dropWhile p).length = l.length) : l.dropWhile p = l :=
  (l.dropWhile_suffix p).eq_of_length h

theorem head_not_of_dropWhile_eq_self {p : Char → Bool} {l : List Char} {c : Char}
    (h : l.dropWhile p = l) (hc : l.head? = some c) : p c = false := by
  cases l with
  | nil => exact Option.noConfusion hc
  | cons d rest =>
    have hdc : d = c := by injection hc
    subst hdc
    cases hp : p d with
    | false => rfl
    | true =>
      rw [List.dropWhile_cons, if_pos hp] at h
      have h1 : (rest.dropWhile p).length ≤ rest.length := (rest.dropWhile_suffix p).length_le
      have h2 := congrArg List.length h
      simp only [List.length_cons] at h2
      omega

theorem trimL_length_le (s : List Char) : (trimL s).length ≤ s.length := by
  unfold trimL
  have h1 : (s.dropWhile isJsSpace).length ≤ s.length := (s.dropWhile_suffix _).length_le
  have h2 : (((s.dropWhile isJsSpace).reverse).dropWhile isJsSpace).length ≤
      (s.dropWhile isJsSpace).reverse.length :=
    ((s.dropWhile isJsSpace).reverse.dropWhile_suffix _).length_le
  simp only [List.length_reverse] at *
  omega

theorem trimL_eq_self_parts {s : List Char} (h : trimL s = s) :
    s.dropWhile isJsSpace = s ∧ s.reverse.dropWhile isJsSpace = s.reverse := by
  have hlen := congrArg List.length h
  unfold trimL at hlen
  have h1 : (s.dropWhile isJsSpace).length ≤ s.length := (s.dropWhile_suffix _).length_le
  have h2 : (((s.dropWhile isJsSpace).reverse).dropWhile isJsSpace).length ≤
      (s.dropWhile isJsSpace).length := by
    have := ((s.dropWhile isJsSpace).reverse.dropWhile_suffix isJsSpace).length_le
    simpa using this
  simp only [List.length_reverse] at hlen
  have hdw : s.dropWhile isJsSpace = s :=
    dropWhile_eq_self_of_length (by omega)
  refine ⟨hdw, ?_⟩
  unfold trimL at h
  rw [hdw] at h
  have := congrArg List.reverse h
  simpa using this

/-- A trimmed, nonempty fragment has a non-space head character. -/
theorem head_not_space_of_trimmed {s : List Char} {c : Char} (h : trimL s = s)
    (hc : s.head? = some c) : isJsSpace c = false :=
  head_not_of_dropWhile_eq_self (trimL_eq_self_parts h).1 hc

/-- A trimmed, nonempty fragment has a non-space last character. -/
theorem getLast_not_space_of_trimmed {s : List Char} {c : Char} (h : trimL s = s)
    (hc : s.getLast? = some c) : isJsSpace c = false := by
  apply head_not_of_dropWhile_eq_self (trimL_eq_self_parts h).2
  rw [List.head?_reverse]
  exact hc

theorem dropWhile_eq_self_of_head_not {p : Char → Bool} {l : List Char}
    (h : ∀ c, l.head? = some c → p c = false) : l.dropWhile p = l := by
  cases l with
  | nil => rfl
  | cons c rest =>
    rw [List.dropWhile_cons, if_neg]
    rw [h c rfl]
    exact Bool.noConfusion

theorem trimL_idem (s : List Char) : trimL (trimL s) = trimL s := by
  set y := s.dropWhile isJsSpace with hy
  set w := y.reverse.dropWhile isJsSpace with hw
  have hu : trimL s = w.reverse := rfl
  have hpre : w.reverse <+: y := by
    have h1 : w <:+ y.reverse := y.reverse.dropWhile_suffix _
    have h2 : w.reverse <+: y.reverse.reverse := List.reverse_prefix.mpr h1
    simpa using h2
  have hstep1 : (trimL s).dropWhile isJsSpace = trimL s := by
    rw [hu]
    apply dropWhile_eq_self_of_head_not
    intro c hc
    obtain ⟨t, ht⟩ := hpre
    have hyh : y.head? = some c := by
      rw [← ht]
      cases hwr : w.reverse with
      | nil => rw [hwr] at hc; exact Option.noConfusion hc
      | cons d rest =>
        rw [hwr] at hc
        injection hc with hc
        subst hc
        rfl
    have hyy : y.dropWhile isJsSpace = y := List.dropWhile_idempotent _ _
    exact head_not_of_dropWhile_eq_self hyy hyh
  have hstep2 : (trimL s).reverse.dropWhile isJsSpace = (trimL s).reverse := by
    rw [hu, List.reverse_reverse, hw]
    exact List.dropWhile_idempotent _ _
  show ((((trimL s).dropWhile isJsSpace).reverse).dropWhile isJsSpace).reverse = trimL s
  rw [hstep1, hstep2]
  simp

/-- `trimL s` is an infix of `s`. -/
theorem trimL_within (s : List Char) : trimL s <:+: s := by
  have h1 : s.dropWhile isJsSpace <:+ s := s.dropWhile_suffix _
  have h2 : (s.dropWhile isJsSpace).reverse.dropWhile isJsSpace <:+
      (s.dropWhile isJsSpace).reverse := (s.dropWhile isJsSpace).reverse.dropWhile_suffix _
  have h3 : trimL s <+: s.dropWhile isJsSpace := by
    have := List.reverse_prefix.mpr h2
    simpa [trimL] using this
  exact h3.isInfix.trans h1.isInfix

theorem sepFreeB_tail {c : Char} {f : List Char} (h : sepFreeB (c :: f) = true) :
    sepFreeB f = true := by
  simp only [sepFreeB, Bool.and_eq_true, List.all_cons, Bool.not_eq_true',
    containsSub, Bool.or_eq_false_iff] at h ⊢
  exact ⟨h.1.2, h.2.2⟩

theorem sepFreeB_head {c : Char} {f : List Char} (h : sepFreeB (c :: f) = true) :
    c ≠ ';' ∧ c ≠ '|' := by
  simp only [sepFreeB, Bool.and_eq_true, List.all_cons, Bool.and_eq_true,
    decide_eq_true_eq] at h
  exact h.1.1

theorem sepFreeB_no_amp {c : Char} {f : List Char} (h : sepFreeB (c :: f) = true) :
    ¬(c = '&' ∧ f.head? = some '&') := by
  intro hpair
  obtain ⟨hc, hf⟩ := hpair
  subst hc
  cases f with
  | nil => exact Option.noConfusion hf
  | cons d rest =>
    have hd : d = '&' := by injection hf
    subst hd
    simp only [sepFreeB, Bool.and_eq_true, Bool.not_eq_true', containsSub,
      Bool.or_eq_false_iff] at h
    have := h.2.1
    simp [List.isPrefixOf] at this

theorem sepMatch_cons_space {c : Char} (hc : isJsSpace c = true) (s : List Char) :
    sepMatch (c :: s) = sepMatch s := by
  unfold sepMatch
  rw [List.dropWhile_cons, if_pos hc]

theorem sepTokLen_cons (d : Char) (t : List Char) :
    sepTokLen (d :: t) =
      if d = '&' ∧ t.head? = some '&' then some 2
      else if d = '|' ∧ t.head? = some '|' then some 2
      else if d = ';' then some 1
      else if d = '|' then some 1
      else none := by
  unfold sepTokLen
  simp only [List.head?_cons, List.tail_cons, Option.some.injEq]

theorem sepTokLen_eq_none {d : Char} {t : List Char} (h1 : d ≠ ';') (h2 : d ≠ '|')
    (h3 : ¬(d = '&' ∧ t.head? = some '&')) : sepTokLen (d :: t) = none := by
  rw [sepTokLen_cons, if_neg h3, if_neg, if_neg h1, if_neg h2]
  intro hp
  exact h2 hp.1

theorem sepMatch_cons_nonspace {c : Char} (hc : isJsSpace c = false)
    (rest : List Char) :
    sepMatch (c :: rest) =
      match sepTokLen (c :: rest) with
      | some n => some (((c :: rest).drop n).dropWhile isJsSpace)
      | none => none := by
  unfold sepMatch
  rw [List.dropWhile_cons, if_neg (by rw [hc]; exact Bool.noConfusion)]

theorem sepMatch_none_of_nonsep {d : Char} {t : List Char} (hsp : isJsSpace d = false)
    (h1 : d ≠ ';') (h2 : d ≠ '|') (h3 : ¬(d = '&' ∧ t.head? = some '&')) :
    sepMatch (d :: t) = none := by
  rw [sepMatch_cons_nonspace hsp, sepTokLen_eq_none h1 h2 h3]

theorem sepMatch_none_facts {c : Char} {rest : List Char}
    (h : sepMatch (c :: rest) = none) :
    c ≠ ';' ∧ c ≠ '|' ∧ ¬(c = '&' ∧ rest.head? = some '&') := by
  refine ⟨?_, ?_, ?_⟩
  · intro hc
    subst hc
    rw [sepMatch_cons_nonspace (by decide), sepTokLen_cons,
      if_neg (by rintro ⟨hp, -⟩; exact absurd hp (by decide)),
      if_neg (by rintro ⟨hp, -⟩; exact absurd hp (by decide)),
      if_pos rfl] at h
    exact Option.noConfusion h
  · intro hc
    subst hc
    rw [sepMatch_cons_nonspace (by decide), sepTokLen_cons,
      if_neg (by rintro ⟨hp, -⟩; exact absurd hp (by decide))] at h
    by_cases hr : rest.head? = some '|'
    · rw [if_pos ⟨rfl, hr⟩] at h
      exact Option.noConfusion h
    · rw [if_neg (by rintro ⟨-, hp⟩; exact hr hp),
        if_neg (by decide), if_pos rfl] at h
      exact Option.noConfusion h
  · intro hpair
    obtain ⟨hc, hr⟩ := hpair
    subst hc
    rw [sepMatch_cons_nonspace (by decide), sepTokLen_cons, if_pos ⟨rfl, hr⟩] at h
    exact Option.noConfusion h

/-- Inside a separator-free fragment whose last character is not
whitespace, followed by nothing or by a space, the split regexp never
matches. -/
theorem sepMatch_frag_none :
    ∀ f : List Char, ∀ rest : List Char, f ≠ [] → sepFreeB f = true →
      (∀ x, f.getLast? = some x → isJsSpace x = false) →
      (rest.head? = none ∨ rest.head? = some ' ') →
      sepMatch (f ++ rest) = none := by
  intro f
  induction f with
  | nil => intro rest hne _ _ _; exact absurd rfl hne
  | cons c f' ih =>
    intro rest _ hsep hlast hrest
    rw [List.cons_append]
    by_cases hc : isJsSpace c = true
    · rw [sepMatch_cons_space hc]
      cases hf' : f' with
      | nil =>
        exfalso
        have := hlast c (by rw [hf']; rfl)
        rw [this] at hc
        exact Bool.noConfusion hc
      | cons d f'' =>
        rw [← hf']
        apply ih rest (by rw [hf']; exact List.cons_ne_nil d f'')
          (sepFreeB_tail hsep) ?_ hrest
        intro x hx
        apply hlast x
        rw [List.getLast?_cons, hf']
        rw [hf'] at hx
        simp only [List.getLast?_cons] at hx ⊢
        exact hx
    · have hc' : isJsSpace c = false := by
        cases hv : isJsSpace c with
        | true => exact absurd hv hc
        | false => rfl
      obtain ⟨h1, h2⟩ := sepFreeB_head hsep
      apply sepMatch_none_of_nonsep hc' h1 h2
      intro hpair
      obtain ⟨hca, hh⟩ := hpair
      cases f' with
      | nil =>
        simp only [List.nil_append] at hh
        cases hrest with
        | inl h0 => rw [h0] at hh; exact Option.noConfusion hh
        | inr h0 =>
          rw [h0] at hh
          injection hh with hh
          exact absurd hh (by decide)
      | cons d f'' =>
        exact sepFreeB_no_amp hsep ⟨hca, by simpa using hh⟩

/-- Scanning straight through a separator-free fragment: the splitter
accumulates its characters without cutting. -/
theorem rawSplitAux_append_noSep :
    ∀ f rest acc : List Char, sepFreeB f = true →
      (∀ x, f.getLast? = some x → isJsSpace x = false) →
      (rest.head? = none ∨ rest.head? = some ' ') →
      rawSplitAux (f ++ rest) acc = rawSplitAux rest (f.reverse ++ acc) := by
  intro f
  induction f with
  | nil => intro rest acc _ _ _; simp
  | cons c f' ih =>
    intro rest acc hsep hlast hrest
    rw [List.cons_append, rawSplitAux_cons]
    have hnone : sepMatch (c :: (f' ++ rest)) = none := by
      have := sepMatch_frag_none (c :: f') rest (List.cons_ne_nil c f') hsep hlast hrest
      simpa using this
    simp only [hnone]
    cases hf' : f' with
    | nil => simp
    | cons d f'' =>
      rw [← hf']
      rw [ih rest (c :: acc) (sepFreeB_tail hsep) ?_ hrest]
      · have harr : f'.reverse ++ (c :: acc) = (c :: f').reverse ++ acc := by simp
        rw [harr]
      · intro x hx
        apply hlast x
        rw [hf'] at hx
        simp only [List.getLast?_cons, hf']
        simpa only [List.getLast?_cons] using hx

/-- The split regexp consumes exactly the `" && "` join separator when the
following text starts with a non-space character (or is empty). -/
theorem sepMatch_join (r : List Char)
    (hr : r.head? = none ∨ ∀ x, r.head? = some x → isJsSpace x = false) :
    sepMatch (' ' :: '&' :: '&' :: ' ' :: r) = some r := by
  rw [sepMatch_cons_space (by decide)]
  rw [sepMatch_cons_nonspace (by decide), sepTokLen_cons, if_pos ⟨rfl, rfl⟩]
  show some ((' ' :: r).dropWhile isJsSpace) = some r
  rw [List.dropWhile_cons, if_pos (by decide)]
  congr 1
  apply dropWhile_eq_self_of_head_not
  intro x hx
  cases hr with
  | inl h0 => rw [h0] at hx; exact Option.noConfusion hx
  | inr h0 => exact h0 x hx

theorem fragOk_parts {f : List Char} (h : fragOk f = true) :
    f ≠ [] ∧ trimL f = f ∧ sepFreeB f = true := by
  simp only [fragOk, Bool.and_eq_true, Bool.not_eq_true', beq_iff_eq] at h
  obtain ⟨⟨hne, htrim⟩, hsep⟩ := h
  refine ⟨?_, htrim, hsep⟩
  intro h0
  subst h0
  simp at hne

theorem fragOk_head_not_space {f : List Char} (h : fragOk f = true) :
    ∀ x, f.head? = some x → isJsSpace x = false := by
  intro x hx
  exact head_not_space_of_trimmed (fragOk_parts h).2.1 hx

theorem fragOk_getLast_not_space {f : List Char} (h : fragOk f = true) :
    ∀ x, f.getLast? = some x → isJsSpace x = false := by
  intro x hx
  exact getLast_not_space_of_trimmed (fragOk_parts h).2.1 hx

/-- The splitter recovers the fragment list from its `" && "` join. -/
theorem rawSplitAux_join :
    ∀ fs : List (List Char), ∀ f acc : List Char, fragOk f = true →
      (∀ g ∈ fs, fragOk g = true) →
      rawSplitAux (joinFrags (f :: fs)) acc = (acc.reverse ++ f) :: fs := by
  intro fs
  induction fs with
  | nil =>
    intro f acc hf _
    show rawSplitAux (f ++ joinRest []) acc = _
    rw [show joinRest [] = [] from rfl, List.append_nil]
    obtain ⟨hne, htrim, hsep⟩ := fragOk_parts hf
    have := rawSplitAux_append_noSep f [] acc hsep (fragOk_getLast_not_space hf)
      (Or.inl rfl)
    simpa [rawSplitAux_nil] using this
  | cons g fs' ih =>
    intro f acc hf hgs
    show rawSplitAux (f ++ joinRest (g :: fs')) acc = _
    obtain ⟨hne, htrim, hsep⟩ := fragOk_parts hf
    rw [rawSplitAux_append_noSep f _ acc hsep (fragOk_getLast_not_space hf)
      (Or.inr (by rw [show joinRest (g :: fs') = ' ' :: '&' :: '&' :: ' ' ::
        (g ++ joinRest fs') from rfl]; rfl))]
    rw [show joinRest (g :: fs') = ' ' :: '&' :: '&' :: ' ' :: (g ++ joinRest fs')
      from rfl]
    rw [rawSplitAux_cons]
    have hg : fragOk g = true := hgs g (by simp)
    have hgne : g ≠ [] := (fragOk_parts hg).1
    have hjoin : sepMatch (' ' :: '&' :: '&' :: ' ' :: (g ++ joinRest fs')) =
        some (g ++ joinRest fs') := by
      apply sepMatch_join
      right
      intro x hx
      apply fragOk_head_not_space hg
      cases g with
      | nil => exact absurd rfl hgne
      | cons y ys => exact hx
    simp only [hjoin]
    rw [show g ++ joinRest fs' = joinFrags (g :: fs') from rfl]
    rw [ih g [] hg (fun a ha => hgs a (by simp [ha]))]
    simp

theorem sepMatch_suffix {s r : List Char} (h : sepMatch s = some r) : r <:+ s := by
  unfold sepMatch at h
  split at h
  · injection h with h
    subst h
    exact (((s.dropWhile isJsSpace).drop _).dropWhile_suffix isJsSpace).trans
      (((s.dropWhile isJsSpace).drop_suffix _).trans (s.dropWhile_suffix isJsSpace))
  · exact Option.noConfusion h

theorem containsSub_pair_singleton {a b c : Char} : containsSub [a, b] [c] = false := by
  simp [containsSub, List.isPrefixOf]

theorem sepFreeB_append_singleton {xs : List Char} {c : Char} (hxs : sepFreeB xs = true)
    (h1 : c ≠ ';') (h2 : c ≠ '|') (h3 : ¬(xs.getLast? = some '&' ∧ c = '&')) :
    sepFreeB (xs ++ [c]) = true := by
  simp only [sepFreeB, Bool.and_eq_true, Bool.not_eq_true'] at hxs ⊢
  constructor
  · rw [List.all_append]
    simp only [Bool.and_eq_true]
    exact ⟨hxs.1, by simp [h1, h2]⟩
  · apply containsSub_pair_append hxs.2 containsSub_pair_singleton
    intro hpair
    obtain ⟨ha, hb⟩ := hpair
    have : c = '&' := by injection hb
    exact h3 ⟨ha, this⟩

/-- Every piece the splitter emits is free of separators. -/
theorem rawSplitAux_pieces_sepFree :
    ∀ n : Nat, ∀ s acc : List Char, s.length ≤ n → sepFreeB acc.reverse = true →
      ¬(acc.head? = some '&' ∧ s.head? = some '&') →
      ∀ p ∈ rawSplitAux s acc, sepFreeB p = true := by
  intro n
  induction n with
  | zero =>
    intro s acc hlen hacc _ p hp
    have hs : s = [] := List.eq_nil_of_length_eq_zero (Nat.le_zero.mp hlen)
    subst hs
    rw [rawSplitAux_nil] at hp
    simp only [List.mem_singleton] at hp
    subst hp
    exact hacc
  | succ m ih =>
    intro s acc hlen hacc hbound p hp
    cases s with
    | nil =>
      rw [rawSplitAux_nil] at hp
      simp only [List.mem_singleton] at hp
      subst hp
      exact hacc
    | cons c rest =>
      rw [rawSplitAux_cons] at hp
      cases hsep : sepMatch (c :: rest) with
      | some rest2 =>
        simp only [hsep] at hp
        rcases List.mem_cons.mp hp with hp1 | hp2
        · subst hp1; exact hacc
        · have hlt := sepMatch_length hsep
          simp only [List.length_cons] at hlt hlen
          exact ih rest2 [] (by omega) (by decide) (by simp) p hp2
      | none =>
        simp only [hsep] at hp
        obtain ⟨hc1, hc2, hc3⟩ := sepMatch_none_facts hsep
        simp only [List.length_cons] at hlen
        apply ih rest (c :: acc) (by omega) ?_ ?_ p hp
        · rw [List.reverse_cons]
          apply sepFreeB_append_singleton hacc hc1 hc2
          intro hpair
          obtain ⟨hl, hcamp⟩ := hpair
          rw [List.getLast?_reverse] at hl
          exact hbound ⟨hl, by simp [hcamp]⟩
        · intro hpair
          obtain ⟨hh, hr⟩ := hpair
          have : c = '&' := by injection hh
          exact hc3 ⟨this, hr⟩

/-- Every piece the splitter emits is an infix of the scanned text. -/
theorem rawSplitAux_pieces_infix :
    ∀ n : Nat, ∀ s acc : List Char, s.length ≤ n →
      ∀ p ∈ rawSplitAux s acc, p <:+: (acc.reverse ++ s) := by
  intro n
  induction n with
  | zero =>
    intro s acc hlen p hp
    have hs : s = [] := List.eq_nil_of_length_eq_zero (Nat.le_zero.mp hlen)
    subst hs
    rw [rawSplitAux_nil] at hp
    simp only [List.mem_singleton] at hp
    subst hp
    simp
  | succ m ih =>
    intro s acc hlen p hp
    cases s with
    | nil =>
      rw [rawSplitAux_nil] at hp
      simp only [List.mem_singleton] at hp
      subst hp
      simp
    | cons c rest =>
      rw [rawSplitAux_cons] at hp
      cases hsep : sepMatch (c :: rest) with
      | some rest2 =>
        simp only [hsep] at hp
        rcases List.mem_cons.mp hp with hp1 | hp2
        · subst hp1
          exact (List.prefix_append acc.reverse (c :: rest)).isInfix
        · have hlt := sepMatch_length hsep
          simp only [List.length_cons] at hlt hlen
          have h1 : p <:+: ([] ++ rest2 : List Char) := ih rest2 [] (by omega) p hp2
          simp only [List.nil_append] at h1
          exact h1.trans ((sepMatch_suffix hsep).isInfix.trans
            (List.suffix_append acc.reverse (c :: rest)).isInfix)
      | none =>
        simp only [hsep] at hp
        simp only [List.length_cons] at hlen
        have h1 := ih rest (c :: acc) (by omega) p hp
        simp only [List.reverse_cons, List.append_assoc, List.singleton_append] at h1
        exact h1

theorem replaceDollar_eq_self {s : List Char} (h : containsSub ['$', '('] s = false) :
    replaceDollar s = s := by
  induction s with
  | nil => exact replaceDollar_nil
  | cons c rest ih =>
    simp only [containsSub, Bool.or_eq_false_iff] at h
    rw [replaceDollar_cons, if_neg, ih h.2]
    intro hcond
    obtain ⟨hc, hh, -, -⟩ := hcond
    subst hc
    cases rest with
    | nil => exact Option.noConfusion hh
    | cons d r2 =>
      have hd : d = '(' := by injection hh
      subst hd
      have := h.1
      simp [List.isPrefixOf] at this

theorem containsSub_singleton_eq_true_iff {a : Char} {s : List Char} :
    containsSub [a] s = true ↔ a ∈ s := by
  rw [containsSub_eq_true_iff]
  constructor
  · intro h
    exact h.sublist.subset (List.mem_singleton_self a)
  · intro h
    obtain ⟨s1, s2, rfl⟩ := List.append_of_mem h
    exact ⟨s1, s2, by simp⟩

theorem replaceBacktick_eq_self {s : List Char} (h : containsSub ['`'] s = false) :
    replaceBacktick s = s := by
  induction s with
  | nil => exact replaceBacktick_nil
  | cons c rest ih =>
    simp only [containsSub, Bool.or_eq_false_iff] at h
    rw [replaceBacktick_cons, if_neg, ih h.2]
    intro hcond
    obtain ⟨hc, -, -⟩ := hcond
    subst hc
    have := h.1
    simp [List.isPrefixOf] at this

theorem not_mem_of_containsSub_singleton {a : Char} {s : List Char}
    (h : containsSub [a] s = false) : a ∉ s := by
  intro hm
  have := containsSub_singleton_eq_true_iff.mpr hm
  rw [h] at this
  exact Bool.noConfusion this

theorem containsSub_singleton_eq_false_of_not_mem {a : Char} {s : List Char}
    (h : a ∉ s) : containsSub [a] s = false := by
  cases hv : containsSub [a] s with
  | false => rfl
  | true => exact absurd (containsSub_singleton_eq_true_iff.mp hv) h

theorem sepFreeB_infix {p q : List Char} (hinf : p <:+: q) (hq : sepFreeB q = true) :
    sepFreeB p = true := by
  simp only [sepFreeB, Bool.and_eq_true, Bool.not_eq_true'] at hq ⊢
  refine ⟨?_, containsSub_eq_false_of_infix hinf hq.2⟩
  simp only [List.all_eq_true] at hq ⊢
  exact fun c hc => hq.1 c (hinf.sublist.subset hc)

theorem joinRest_pair_free {a b : Char} (ha1 : a ≠ ' ') (ha2 : a ≠ '&') (hb : b ≠ ' ') :
    ∀ l : List (List Char), (∀ g ∈ l, containsSub [a, b] g = false) →
      containsSub [a, b] (joinRest l) = false := by
  intro l
  induction l with
  | nil => intro _; rfl
  | cons f fs ih =>
    intro hl
    show containsSub [a, b] (' ' :: '&' :: '&' :: ' ' :: (f ++ joinRest fs)) = false
    simp only [containsSub, Bool.or_eq_false_iff]
    refine ⟨by simp [List.isPrefixOf, ha1], by simp [List.isPrefixOf, ha2],
      by simp [List.isPrefixOf, ha2], by simp [List.isPrefixOf, ha1], ?_⟩
    apply containsSub_pair_append (hl f (by simp)) (ih fun g hg => hl g (by simp [hg]))
    intro hpair
    obtain ⟨-, hh⟩ := hpair
    cases fs with
    | nil => exact Option.noConfusion hh
    | cons g2 fs2 =>
      have : b = ' ' := by
        have h0 : (joinRest (g2 :: fs2)).head? = some ' ' := rfl
        rw [h0] at hh
        injection hh with hh
        exact hh.symm
      exact hb this

theorem joinFrags_pair_free {a b : Char} (ha1 : a ≠ ' ') (ha2 : a ≠ '&') (hb : b ≠ ' ') :
    ∀ l : List (List Char), (∀ g ∈ l, containsSub [a, b] g = false) →
      containsSub [a, b] (joinFrags l) = false := by
  intro l hl
  cases l with
  | nil => rfl
  | cons f fs =>
    show containsSub [a, b] (f ++ joinRest fs) = false
    apply containsSub_pair_append (hl f (by simp))
      (joinRest_pair_free ha1 ha2 hb fs fun g hg => hl g (by simp [hg]))
    intro hpair
    obtain ⟨-, hh⟩ := hpair
    cases fs with
    | nil => exact Option.noConfusion hh
    | cons g2 fs2 =>
      have : b = ' ' := by
        have h0 : (joinRest (g2 :: fs2)).head? = some ' ' := rfl
        rw [h0] at hh
        injection hh with hh
        exact hh.symm
      exact hb this

theorem joinRest_not_mem {a : Char} (ha1 : a ≠ ' ') (ha2 : a ≠ '&') :
    ∀ l : List (List Char), (∀ g ∈ l, a ∉ g) → a ∉ joinRest l := by
  intro l
  induction l with
  | nil => intro _; simp [joinRest]
  | cons f fs ih =>
    intro hl
    show a ∉ ' ' :: '&' :: '&' :: ' ' :: (f ++ joinRest fs)
    simp only [List.mem_cons, List.mem_append, not_or]
    exact ⟨ha1, ha2, ha2, ha1, hl f (by simp), ih fun g hg => hl g (by simp [hg])⟩

theorem joinFrags_not_mem {a : Char} (ha1 : a ≠ ' ') (ha2 : a ≠ '&') :
    ∀ l : List (List Char), (∀ g ∈ l, a ∉ g) → a ∉ joinFrags l := by
  intro l hl
  cases l with
  | nil => simp [joinFrags]
  | cons f fs =>
    show a ∉ f ++ joinRest fs
    simp only [List.mem_append, not_or]
    exact ⟨hl f (by simp), joinRest_not_mem ha1 ha2 fs fun g hg => hl g (by simp [hg])⟩

/-- The fragment-expansion step of `splitCommandL` is the identity on a
list of marker-free, well-shaped fragments. -/
theorem splitStep_flatMap_id :
    ∀ l : List (List Char),
      (∀ g ∈ l, fragOk g = true ∧ containsSub subcmdMarker g = false) →
      (l.flatMap fun part =>
        if containsSub subcmdMarker part then
          (((splitOnMarker part).filter (fun p => !p.isEmpty)).map trimL).filter
            (fun t => !t.isEmpty)
        else if (trimL part).isEmpty then [] else [trimL part]) = l := by
  intro l
  induction l with
  | nil => intro _; rfl
  | cons g l' ih =>
    intro hl
    obtain ⟨hg, hgm⟩ := hl g (by simp)
    obtain ⟨hne, htrim, -⟩ := fragOk_parts hg
    rw [List.flatMap_cons, ih fun x hx => hl x (by simp [hx])]
    rw [if_neg (by rw [hgm]; exact Bool.noConfusion), htrim,
      if_neg (by rw [List.isEmpty_iff]; exact fun h0 => hne h0)]
    rfl

/-- `splitCommandL` recovers a list of well-shaped, subshell-free
fragments from their `" && "` join. -/
theorem splitCommandL_join (f : List Char) (fs : List (List Char))
    (hall : ∀ g ∈ f :: fs, fragOk g = true ∧ containsSub ['$', '('] g = false ∧
      containsSub ['`'] g = false ∧ containsSub subcmdMarker g = false) :
    splitCommandL (joinFrags (f :: fs)) = f :: fs := by
  unfold splitCommandL
  have hdollar : containsSub ['$', '('] (joinFrags (f :: fs)) = false :=
    joinFrags_pair_free (by decide) (by decide) (by decide) _
      fun g hg => (hall g hg).2.1
  have hbt : containsSub ['`'] (joinFrags (f :: fs)) = false := by
    apply containsSub_singleton_eq_false_of_not_mem
    apply joinFrags_not_mem (by decide) (by decide)
    intro g hg
    exact not_mem_of_containsSub_singleton (hall g hg).2.2.1
  rw [replaceDollar_eq_self hdollar, replaceBacktick_eq_self hbt]
  rw [show rawSplit (joinFrags (f :: fs)) = f :: fs from by
    unfold rawSplit
    rw [rawSplitAux_join fs f [] (hall f (by simp)).1 fun g hg => (hall g (by simp [hg])).1]
    rfl]
  exact splitStep_flatMap_id (f :: fs) fun g hg => ⟨(hall g hg).1, (hall g hg).2.2.2⟩

/-- Every fragment of a subshell-free command is well-shaped and itself
subshell-free. -/
theorem splitCommandL_fragOk {cmd : List Char} (h : subshellFree cmd = true) :
    ∀ f ∈ splitCommandL cmd, fragOk f = true ∧ containsSub ['$', '('] f = false ∧
      containsSub ['`'] f = false ∧ containsSub subcmdMarker f = false := by
  intro f hf
  simp only [subshellFree, Bool.and_eq_true, Bool.not_eq_true'] at h
  obtain ⟨⟨hd, hb⟩, hm⟩ := h
  unfold splitCommandL at hf
  rw [replaceDollar_eq_self hd, replaceBacktick_eq_self hb] at hf
  obtain ⟨p, hp, hfp⟩ := List.mem_flatMap.mp hf
  have hpinf : p <:+: cmd := by
    have := rawSplitAux_pieces_infix cmd.length cmd [] (le_refl _) p hp
    simpa using this
  have hpm : containsSub subcmdMarker p = false := containsSub_eq_false_of_infix hpinf hm
  rw [if_neg (by rw [hpm]; exact Bool.noConfusion)] at hfp
  by_cases he : (trimL p).isEmpty = true
  · rw [if_pos he] at hfp
    exact absurd hfp (List.not_mem_nil f)
  · rw [if_neg he] at hfp
    simp only [List.mem_singleton] at hfp
    subst hfp
    have htinf : trimL p <:+: cmd := (trimL_within p).trans hpinf
    have hsepp : sepFreeB p = true :=
      rawSplitAux_pieces_sepFree cmd.length cmd [] (le_refl _) (by decide) (by simp) p hp
    refine ⟨?_, containsSub_eq_false_of_infix htinf hd,
      containsSub_eq_false_of_infix htinf hb, containsSub_eq_false_of_infix htinf hm⟩
    simp only [fragOk, Bool.and_eq_true, Bool.not_eq_true', beq_iff_eq]
    refine ⟨⟨?_, trimL_idem p⟩, sepFreeB_infix (trimL_within p) hsepp⟩
    cases hv : (trimL p).isEmpty with
    | false => rfl
    | true => exact absurd hv he

/-- A single well-shaped, subshell-free fragment splits to itself. -/
theorem splitCommandL_single {f : List Char} (hf : fragOk f = true)
    (hd : containsSub ['$', '('] f = false) (hb : containsSub ['`'] f = false)
    (hm : containsSub subcmdMarker f = false) : splitCommandL f = [f] := by
  unfold splitCommandL
  rw [replaceDollar_eq_self hd, replaceBacktick_eq_self hb]
  obtain ⟨hne, htrim, hsep⟩ := fragOk_parts hf
  rw [show rawSplit f = [f] from by
    unfold rawSplit
    have := rawSplitAux_append_noSep f [] [] hsep (fragOk_getLast_not_space hf)
      (Or.inl rfl)
    simp only [List.append_nil] at this
    rw [this, rawSplitAux_nil]
    simp]
  exact splitStep_flatMap_id [f] (by
    intro g hg
    simp only [List.mem_singleton] at hg
    subst hg
    exact ⟨hf, hm⟩)

/-- The characters of `String.intercalate " && " l` are the `" && "` join
of the characters of the elements. -/
theorem intercalate_and_data :
    ∀ l : List String, (String.intercalate " && " l).data =
      joinFrags (l.map String.data) := by
  intro l
  cases l with
  | nil => rfl
  | cons a as =>
    show (String.intercalate.go a " && " as).data = a.data ++ joinRest (as.map String.data)
    induction as generalizing a with
    | nil =>
      show a.data = a.data ++ joinRest []
      simp [joinRest]
    | cons b bs ih =>
      show (String.intercalate.go (a ++ " && " ++ b) " && " bs).data = _
      rw [ih (a ++ " && " ++ b)]
      show (a.data ++ [' ', '&', '&', ' '] ++ b.data) ++ joinRest (bs.map String.data) =
        a.data ++ (' ' :: '&' :: '&' :: ' ' :: (b.data ++ joinRest (bs.map String.data)))
      simp

end Guard
end Buffalo

namespace Buffalo
namespace Batch

open Guard (isJsSpace isLineTerm trimL containsSub)

theorem tailsAfterTerm_eq_nil {s : List Char} (h : ∀ c ∈ s, isLineTerm c = false) :
    tailsAfterTerm s = [] := by
  induction s with
  | nil => rfl
  | cons c rest ih =>
    unfold tailsAfterTerm
    rw [if_neg (by rw [h c (by simp)]; exact Bool.noConfusion)]
    exact ih fun x hx => h x (by simp [hx])

theorem mem_dropWhile_of_not {p : Char → Bool} {l : List Char} {c : Char}
    (hm : c ∈ l) (hc : p c = false) : c ∈ l.dropWhile p := by
  induction l with
  | nil => exact absurd hm (List.not_mem_nil c)
  | cons d rest ih =>
    rw [List.dropWhile_cons]
    by_cases hd : p d = true
    · rw [if_pos hd]
      rcases List.mem_cons.mp hm with h0 | h0
      · subst h0; rw [hc] at hd; exact Bool.noConfusion hd
      · exact ih h0
    · rw [if_neg hd]
      exact hm

theorem dropWhile_ne_nil_of_mem {p : Char → Bool} {l : List Char}
    (hex : ∃ c ∈ l, p c = false) : l.dropWhile p ≠ [] := by
  obtain ⟨c, hm, hc⟩ := hex
  intro h0
  have := mem_dropWhile_of_not hm hc
  rw [h0] at this
  exact List.not_mem_nil c this

theorem takeWhile_eq_self_of_all {p : Char → Bool} {l : List Char}
    (h : ∀ c ∈ l, p c = true) : l.takeWhile p = l := by
  induction l with
  | nil => rfl
  | cons c rest ih =>
    rw [List.takeWhile_cons, if_pos (h c (by simp))]
    rw [ih fun x hx => h x (by simp [hx])]

theorem trimL_dropWhile_left (l : List Char) :
    trimL (l.dropWhile isJsSpace) = trimL l := by
  unfold Guard.trimL
  rw [List.dropWhile_idempotent]

theorem trimL_ne_nil_of_mem {l : List Char} (hex : ∃ c ∈ l, isJsSpace c = false) :
    trimL l ≠ [] := by
  obtain ⟨c, hm, hc⟩ := hex
  unfold Guard.trimL
  intro h0
  have h1 : ((l.dropWhile isJsSpace).reverse.dropWhile isJsSpace) = [] := by
    have := congrArg List.reverse h0
    simpa using this
  apply dropWhile_ne_nil_of_mem (p := isJsSpace)
    (l := (l.dropWhile isJsSpace).reverse) ⟨c, ?_, hc⟩ h1
  rw [List.mem_reverse]
  exact mem_dropWhile_of_not hm hc

/-- The shape of `extractClarification` once the directive line has
matched with raw capture `t`. -/
theorem extractClarification_shape (r : String) (t : List Char)
    (h0 : r.data.isEmpty = false)
    (hmk : matchKeywordLine "CLARIFICATION_NEEDED:".data r.data = some t)
    (ht : t.isEmpty = false) :
    extractClarification (some r) =
      (if (trimL (stripQuoteRuns t)).isEmpty then none
       else if clarPlaceholders.contains ⟨normalizeAnswer (trimL (stripQuoteRuns t))⟩
       then none else some ⟨trimL (stripQuoteRuns t)⟩) := by
  simp only [extractClarification, h0, Bool.false_eq_true, if_false, hmk, ht]

end Batch
end Buffalo

namespace Buffalo
namespace Session

theorem find_append_of_none {p : String × SessionInfo → Bool} {l1 : Store}
    (l2 : Store) (h : l1.find? p = none) : (l1 ++ l2).find? p = l2.find? p := by
  induction l1 with
  | nil => rfl
  | cons a t ih =>
    rw [List.cons_append]
    by_cases ha : p a = true
    · rw [List.find?_cons_of_pos t ha] at h; exact Option.noConfusion h
    · rw [List.find?_cons_of_neg t ha] at h
      rw [List.find?_cons_of_neg (t ++ l2) ha]
      exact ih h

theorem find_replace (b : String) (i : SessionInfo) :
    ∀ st : Store, (st.any fun p => p.1 == b) = true →
      (st.map fun p => if p.1 == b then (b, i) else p).find? (fun p => p.1 == b) =
        some (b, i) := by
  intro st
  induction st with
  | nil => intro h; exact absurd h (by simp)
  | cons q st2 ih =>
    intro h
    rw [List.map_cons]
    by_cases hq : (q.1 == b) = true
    · rw [if_pos hq]
      exact List.find?_cons_of_pos (p := fun r : String × SessionInfo => r.1 == b) _ (by simp)
    · rw [if_neg hq, List.find?_cons_of_neg (p := fun r : String × SessionInfo => r.1 == b) _ hq]
      apply ih
      simp only [List.any_cons, Bool.or_eq_true] at h
      rcases h with h | h
      · exact absurd h hq
      · exact h

/-- `setSession` followed by `getSession` on the same branch returns the
stored record. -/
theorem getSession_setSession (st : Store) (b : String) (i : SessionInfo) :
    getSession (setSession st b i) b = some i := by
  unfold getSession setSession
  by_cases hany : (st.any fun p => p.1 == b) = true
  · rw [if_pos hany, find_replace b i st hany]
    rfl
  · rw [if_neg hany]
    have hnone : st.find? (fun p => p.1 == b) = none := by
      rw [List.find?_eq_none]
      intro p hp hpb
      exact hany (List.any_eq_true.mpr ⟨p, hp, hpb⟩)
    rw [find_append_of_none _ hnone,
      List.find?_cons_of_pos (p := fun r : String × SessionInfo => r.1 == b) _ (by simp)]
    rfl

theorem mem_setSession {st : Store} {b : String} {i : SessionInfo}
    {q : String × SessionInfo} (hq : q ∈ setSession st b i) :
    q = (b, i) ∨ q ∈ st := by
  unfold setSession at hq
  by_cases hany : (st.any fun p => p.1 == b) = true
  · rw [if_pos hany] at hq
    obtain ⟨r, hr, hrq⟩ := List.mem_map.mp hq
    by_cases hrb : (r.1 == b) = true
    · rw [if_pos hrb] at hrq; exact Or.inl hrq.symm
    · rw [if_neg hrb] at hrq; exact Or.inr (hrq ▸ hr)
  · rw [if_neg hany] at hq
    rcases List.mem_append.mp hq with h | h
    · exact Or.inr h
    · exact Or.inl (List.mem_singleton.mp h)

theorem keys_setSession (st : Store) (b : String) (i : SessionInfo) :
    (setSession st b i).map Prod.fst = st.map Prod.fst ∨
      ((setSession st b i).map Prod.fst = st.map Prod.fst ++ [b] ∧
        b ∉ st.map Prod.fst) := by
  unfold setSession
  by_cases hany : (st.any fun p => p.1 == b) = true
  · left
    rw [if_pos hany, List.map_map]
    apply List.map_congr_left
    intro q _
    by_cases hqb : (q.1 == b) = true
    · show ((if q.1 == b then (b, i) else q) : String × SessionInfo).1 = q.1
      rw [if_pos hqb]
      exact (eq_of_beq hqb).symm
    · show ((if q.1 == b then (b, i) else q) : String × SessionInfo).1 = q.1
      rw [if_neg hqb]
  · right
    rw [if_neg hany, List.map_append]
    refine ⟨rfl, ?_⟩
    intro hb
    obtain ⟨q, hq, hqb⟩ := List.mem_map.mp hb
    exact hany (List.any_eq_true.mpr ⟨q, hq, by simp [hqb]⟩)

theorem nodup_keys_setSession {st : Store} (h : (st.map Prod.fst).Nodup)
    (b : String) (i : SessionInfo) : ((setSession st b i).map Prod.fst).Nodup := by
  rcases keys_setSession st b i with hk | ⟨hk, hnb⟩
  · rw [hk]; exact h
  · rw [hk, List.nodup_append]
    exact ⟨h, List.nodup_singleton b,
      fun a ha hb => hnb ((List.mem_singleton.mp hb) ▸ ha)⟩

theorem storeInv_setSession {st : Store} {b : String} {i : SessionInfo}
    (h : storeInv st) (hi : sessionInvB i = true) : storeInv (setSession st b i) := by
  refine ⟨?_, nodup_keys_setSession h.2 b i⟩
  intro p hp
  rcases mem_setSession hp with he | hm
  · rw [he]; exact hi
  · exact h.1 p hm

theorem sessionInvB_of_getSession {st : Store} {b : String} {s : SessionInfo}
    (h : storeInv st) (hg : getSession st b = some s) : sessionInvB s = true := by
  unfold getSession at hg
  cases hf : st.find? (fun p => p.1 == b) with
  | none => rw [hf] at hg; exact Option.noConfusion hg
  | some q =>
    rw [hf] at hg
    injection hg with hg
    rw [← hg]
    exact h.1 q (List.mem_of_find?_eq_some hf)

theorem sessionInvB_fields {s : SessionInfo} (h : sessionInvB s = true) :
    s.pendingApproval.isSome = (s.status == SessionStatus.waiting_approval) ∧
      s.pendingClarification.isSome =
        (s.status == SessionStatus.waiting_clarification) := by
  unfold sessionInvB at h
  simp only [Bool.and_eq_true, beq_iff_eq] at h
  exact h

theorem status_beq_false {a b : SessionStatus} (h : ¬ a = b) : (a == b) = false :=
  decide_eq_false h

theorem sessionInvB_escalated (br : String) (pr : Nat) (ids : List Nat)
    (tr : Option (List TriggerComment)) (off : Nat) (pa : PendingApproval)
    (pc : Option PendingClarification) (hpc : pc.isSome = false) :
    sessionInvB ⟨br, pr, ids, tr, SessionStatus.waiting_approval, off, some pa, pc⟩ =
      true := by
  show (((some pa).isSome ==
      (SessionStatus.waiting_approval == SessionStatus.waiting_approval)) &&
    (pc.isSome ==
      (SessionStatus.waiting_approval == SessionStatus.waiting_clarification))) = true
  rw [hpc]
  rfl

theorem storeInv_freshSession {st : Store} (h : storeInv st) (b : String) (pr : Nat)
    (ids : List Nat) (tr : List TriggerComment) :
    storeInv (freshSession st b pr ids tr) :=
  storeInv_setSession h rfl

theorem storeInv_newCommentsUpdate {st : Store} (h : storeInv st) (b : String)
    (pr : Nat) (ids : List Nat) (tr : List TriggerComment) :
    storeInv (newCommentsUpdate st b pr ids tr) := by
  cases hg : getSession st b with
  | none => simp only [newCommentsUpdate, hg]; exact storeInv_setSession h rfl
  | some ex =>
    simp only [newCommentsUpdate, hg]
    by_cases h1 : ex.status = SessionStatus.waiting_clarification ∧
        ex.pendingClarification ≠ none
    · rw [if_pos h1]; exact storeInv_setSession h rfl
    · rw [if_neg h1]
      by_cases h2 : ex.status = SessionStatus.running
      · rw [if_pos h2]; exact h
      · rw [if_neg h2]; exact storeInv_setSession h rfl

theorem storeInv_monitorStore {patterns : List Guard.Pattern} {st : Store}
    {b : String} {logExists : Bool} {content : String} {cid : Nat}
    (h : storeInv st)
    (hnc : ∀ s, getSession st b = some s →
      s.status ≠ SessionStatus.waiting_clarification) :
    storeInv (monitorSessionStore patterns st b logExists content cid) := by
  cases hg : getSession st b with
  | none => simp only [monitorSessionStore, hg]; exact h
  | some s =>
    have hf := sessionInvB_fields (sessionInvB_of_getSession h hg)
    have hpc : s.pendingClarification.isSome = false := by
      rw [hf.2]
      exact status_beq_false (hnc s hg)
    have hs2 : sessionInvB { s with logOffset := content.data.length } = true :=
      @sessionInvB_of_getSession st b s h hg
    simp only [monitorSessionStore, hg]
    split
    · exact h
    · split
      · exact h
      · split
        · split
          · exact storeInv_setSession h hs2
          · refine storeInv_setSession (storeInv_setSession
              (storeInv_setSession h ?_) ?_) ?_
            · exact hs2
            · exact sessionInvB_escalated _ _ _ _ _ _ _ hpc
            · exact sessionInvB_escalated _ _ _ _ _ _ _ hpc
        · exact storeInv_setSession h hs2

theorem storeInv_pollMonitorStep {patterns : List Guard.Pattern} {st : Store}
    {b : String} {logExists : Bool} {content : String} {cid : Nat}
    (h : storeInv st) :
    storeInv (pollMonitorStep patterns st b logExists content cid) := by
  cases hg : getSession st b with
  | none => simp only [pollMonitorStep, hg]; exact h
  | some s =>
    simp only [pollMonitorStep, hg]
    by_cases hskip : s.status = SessionStatus.paused ∨
        s.status = SessionStatus.waiting_approval ∨
        s.status = SessionStatus.waiting_clarification
    · rw [if_pos hskip]; exact h
    · rw [if_neg hskip]
      apply storeInv_monitorStore h
      intro s2 hg2
      rw [hg] at hg2
      injection hg2 with he
      rw [← he]
      intro hwc
      exact hskip (Or.inr (Or.inr hwc))

theorem storeInv_setWaitingClarification {st : Store} {b : String}
    (h : storeInv st) (q : String) (cid : Nat)
    (hna : ∀ s, getSession st b = some s →
      s.status ≠ SessionStatus.waiting_approval) :
    storeInv (setWaitingClarification st b q cid) := by
  cases hg : getSession st b with
  | none => simp only [setWaitingClarification, hg]; exact h
  | some s =>
    simp only [setWaitingClarification, hg]
    apply storeInv_setSession h
    have hf := sessionInvB_fields (sessionInvB_of_getSession h hg)
    have hpa : s.pendingApproval.isSome = false := by
      rw [hf.1]
      exact status_beq_false (hna s hg)
    show ((s.pendingApproval.isSome ==
        (SessionStatus.waiting_clarification == SessionStatus.waiting_approval)) &&
      ((some (⟨q, cid⟩ : PendingClarification)).isSome ==
        (SessionStatus.waiting_clarification ==
          SessionStatus.waiting_clarification))) = true
    rw [hpa]
    rfl

theorem storeInv_handleApproval {st : Store} (h : storeInv st) (b : String)
    (a : ApprovalAction) (pat : Option String) :
    storeInv (handleApproval st b a pat) := by
  cases hg : getSession st b with
  | none => simp only [handleApproval, hg]; exact h
  | some s =>
    cases hpa : s.pendingApproval with
    | none => simp only [handleApproval, hg, hpa]; exact h
    | some pa =>
      simp only [handleApproval, hg, hpa]
      apply storeInv_setSession h
      have hf := sessionInvB_fields (sessionInvB_of_getSession h hg)
      have hwa : s.status = SessionStatus.waiting_approval := by
        have hb : (s.status == SessionStatus.waiting_approval) = true := by
          rw [← hf.1, hpa]
          rfl
        exact of_decide_eq_true hb
      have hpc : s.pendingClarification.isSome = false := by
        rw [hf.2, hwa]
        rfl
      show (((none : Option PendingApproval).isSome ==
          (SessionStatus.running == SessionStatus.waiting_approval)) &&
        (s.pendingClarification.isSome ==
          (SessionStatus.running == SessionStatus.waiting_clarification))) = true
      rw [hpc]
      rfl

theorem storeInv_resumeSession {st : Store} (h : storeInv st) (b : String) :
    storeInv (resumeSession st b).1 := by
  cases hg : getSession st b with
  | none => simp only [resumeSession, hg]; exact h
  | some s =>
    simp only [resumeSession, hg]
    by_cases hp : s.status = SessionStatus.paused
    · rw [if_pos hp]
      apply storeInv_setSession h
      have hf := sessionInvB_fields (sessionInvB_of_getSession h hg)
      have hpa : s.pendingApproval.isSome = false := by
        rw [hf.1, hp]
        rfl
      have hpc : s.pendingClarification.isSome = false := by
        rw [hf.2, hp]
        rfl
      show ((s.pendingApproval.isSome ==
          (SessionStatus.running == SessionStatus.waiting_approval)) &&
        (s.pendingClarification.isSome ==
          (SessionStatus.running == SessionStatus.waiting_clarification))) = true
      rw [hpa, hpc]
      rfl
    · rw [if_neg hp]; exact h

theorem storeInv_removeSession {st : Store} (h : storeInv st) (b : String) :
    storeInv (removeSession st b) := by
  refine ⟨fun p hp => h.1 p (List.mem_of_mem_filter hp), ?_⟩
  have hs : List.Sublist (removeSession st b) st := List.filter_sublist st
  exact List.Nodup.sublist (hs.map Prod.fst) h.2

theorem nodup_keys_pauseSession {st : Store} (h : storeInv st) (b : String) :
    (((pauseSession st b).1).map Prod.fst).Nodup := by
  cases hg : getSession st b with
  | none => simp only [pauseSession, hg]; exact h.2
  | some s =>
    simp only [pauseSession, hg]
    exact nodup_keys_setSession h.2 b _

theorem logOffset_monitorStore {patterns : List Guard.Pattern} {st : Store}
    {b : String} {content : String} {cid : Nat} {s s2 : SessionInfo}
    (hg : getSession st b = some s)
    (hlen : s.logOffset ≤ content.data.length)
    (hg2 : getSession (monitorSessionStore patterns st b true content cid) b =
      some s2) :
    s.logOffset ≤ s2.logOffset := by
  simp only [monitorSessionStore, hg] at hg2
  split at hg2
  · rw [hg] at hg2
    injection hg2 with he
    rw [← he]
  · split at hg2
    · exact absurd (by assumption : (true : Bool) = false) (by simp)
    · split at hg2
      · split at hg2
        · rw [getSession_setSession] at hg2
          injection hg2 with he
          rw [← he]
          exact hlen
        · rw [getSession_setSession] at hg2
          injection hg2 with he
          rw [← he]
          exact hlen
      · rw [getSession_setSession] at hg2
        injection hg2 with he
        rw [← he]
        exact hlen

end Session
end Buffalo

namespace Buffalo.Claims

open Buffalo.Guard

open Buffalo.Batch

open Buffalo.Poller

open Buffalo.Session

/-- C1, counterexample: with a whitelist matching exactly `echo` and `hi`,
the compound command `` `echo && hi` `` (i.e. cmdA = `` `echo ``, cmdB =
``hi` ``) is approved, although `checkCommand` rejects cmdA on its own —
the backtick subshell span forms across the `&&` join, so the compound's
fragments are not the union of the parts' fragments. -/
theorem claim1_counterexample :
    (checkCommand echoHiPatterns ("`echo" ++ " && " ++ "hi`")).approved = true ∧
    (checkCommand echoHiPatterns "`echo").approved = false := by
  constructor <;> decide

/-- C1 (amended): whenever `splitCommand` distributes over the `&&` join
(which can fail only when subshell delimiters span the join), the
compound command is approved iff both halves are; and unconditionally, a
rejected command reports as `failedPart` the first fragment, in
`splitCommand` order, matched by no whitelist pattern. -/
theorem claim1_compound_iff_and_first_failing (patterns : List Pattern) :
    (∀ cmdA cmdB : String,
      splitCommand (cmdA ++ " && " ++ cmdB) = splitCommand cmdA ++ splitCommand cmdB →
      (checkCommand patterns (cmdA ++ " && " ++ cmdB)).approved =
        ((checkCommand patterns cmdA).approved && (checkCommand patterns cmdB).approved)) ∧
    (∀ cmd : String, (checkCommand patterns cmd).approved = false →
      (checkCommand patterns cmd).failedPart =
        (splitCommand cmd).find? (fun p => !patterns.any (fun pat => patMatches pat p))) := by
  constructor
  · intro cmdA cmdB hsplit
    unfold checkCommand
    rw [hsplit, checkParts_approved, checkParts_approved, checkParts_approved, List.all_append]
  · intro cmd _happ
    unfold checkCommand
    rw [checkParts_eq]
    cases (splitCommand cmd).find? (fun p => !patterns.any (fun pat => patMatches pat p)) <;>
      rfl

theorem claim1_witness :
    (splitCommand ("git status" ++ " && " ++ "ls") =
      splitCommand "git status" ++ splitCommand "ls") ∧
    (checkCommand gitLsPatterns ("git status" ++ " && " ++ "ls")).approved =
      ((checkCommand gitLsPatterns "git status").approved &&
        (checkCommand gitLsPatterns "ls").approved) ∧
    (checkCommand gitLsPatterns "rm -rf / && git status").approved = false ∧
    (checkCommand gitLsPatterns "rm -rf / && git status").failedPart =
      (splitCommand "rm -rf / && git status").find?
        (fun p => !gitLsPatterns.any (fun pat => patMatches pat p)) :=
  ⟨by decide,
   (claim1_compound_iff_and_first_failing gitLsPatterns).1 "git status" "ls" (by decide),
   by decide,
   (claim1_compound_iff_and_first_failing gitLsPatterns).2 "rm -rf / && git status" (by decide)⟩

/-- C6: a malformed whitelist entry (one the regexp compiler rejects, so
its matcher is `none`) never raises and behaves exactly as an entry that
matches no fragment: `checkCommand` returns the same result either way,
for every command and every surrounding whitelist. -/
theorem claim6_malformed_matches_nothing (pre post : List Pattern) (cmd : String) :
    checkCommand (pre ++ none :: post) cmd =
      checkCommand (pre ++ some (fun _ => false) :: post) cmd := by
  unfold checkCommand
  induction splitCommand cmd with
  | nil => rfl
  | cons p rest ih =>
    have hany : ((pre ++ none :: post).any (fun pat => patMatches pat p)) =
        ((pre ++ some (fun _ => false) :: post).any (fun pat => patMatches pat p)) := by
      simp [List.any_append, patMatches]
    by_cases hp : ((pre ++ none :: post).any (fun pat => patMatches pat p)) = true
    · simp only [checkParts, hp, if_true, hany ▸ hp, ih]
    · simp only [checkParts, hp, if_false, Bool.false_eq_true]
      rw [← hany]
      simp [hp]

/-- C10: any command whose `splitCommand` fragment list is empty — e.g.
the empty string, or whitespace and separators only — is approved by
`checkCommand` against every whitelist, including the empty one, without
consulting any pattern. -/
theorem claim10_empty_split_approved (patterns : List Pattern) (cmd : String)
    (h : splitCommand cmd = []) :
    checkCommand patterns cmd = { approved := true } := by
  unfold checkCommand
  rw [h]
  rfl

theorem claim10_witness :
    splitCommand "" = [] ∧
    splitCommand "  &&  ||  ; |  " = [] ∧
    checkCommand [] "" = { approved := true } ∧
    checkCommand [] "  &&  ||  ; |  " = { approved := true } ∧
    checkCommand echoHiPatterns "  &&  ||  ; |  " = { approved := true } :=
  ⟨by decide, by decide,
   claim10_empty_split_approved [] "" (by decide),
   claim10_empty_split_approved [] "  &&  ||  ; |  " (by decide),
   claim10_empty_split_approved echoHiPatterns "  &&  ||  ; |  " (by decide)⟩

/-- C9, counterexample: for the command `$( $(x ) && b)` the fragments
are `$(x` and `b)` (a `$(` and a `)` left over from nested subshell
rewriting); re-joining them with the `&&` separator and re-splitting
yields `x` and `b` instead, because the leftover delimiters re-form a
subshell span across the join. -/
theorem claim9_counterexample :
    splitCommand "$( $(x ) && b)" = ["$(x", "b)"] ∧
    splitCommand (String.intercalate " && " (splitCommand "$( $(x ) && b)")) ≠
      splitCommand "$( $(x ) && b)" := by
  constructor
  · decide
  · decide

/-- C9 (amended): for commands free of subshell syntax (`$(`, backticks)
and of the internal marker text, splitting is stable: re-joining the
fragments with the `" && "` separator and re-splitting yields the same
fragment list, and each individual fragment re-splits to exactly itself. -/
theorem claim9_split_stable (cmd : String) (h : subshellFree cmd.data = true) :
    splitCommand (String.intercalate " && " (splitCommand cmd)) = splitCommand cmd ∧
    ∀ f ∈ splitCommand cmd, splitCommand f = [f] := by
  constructor
  · cases hsc : splitCommandL cmd.data with
    | nil =>
      have h0 : splitCommand cmd = [] := by
        unfold splitCommand
        rw [hsc]
        rfl
      rw [h0]
      decide
    | cons l ls =>
      have h0 : splitCommand cmd = ⟨l⟩ :: ls.map (fun x => (⟨x⟩ : String)) := by
        unfold splitCommand
        rw [hsc]
        rfl
      rw [h0]
      have hall : ∀ g ∈ l :: ls, fragOk g = true ∧
          containsSub ['$', '('] g = false ∧ containsSub ['`'] g = false ∧
          containsSub subcmdMarker g = false := by
        intro g hg
        apply splitCommandL_fragOk h
        rw [hsc]
        exact hg
      unfold splitCommand
      rw [intercalate_and_data]
      have hmapdata : ((⟨l⟩ :: ls.map fun x => (⟨x⟩ : String)).map String.data) =
          l :: ls := by
        simp only [List.map_cons, List.map_map]
        refine congrArg _ ?_
        rw [show (String.data ∘ fun x : List Char => (⟨x⟩ : String)) = id from rfl,
          List.map_id]
      rw [hmapdata, splitCommandL_join l ls hall]
      rfl
  · intro f hf
    unfold splitCommand at hf
    obtain ⟨lf, hlf, rfl⟩ := List.mem_map.mp hf
    have hp := splitCommandL_fragOk h lf hlf
    unfold splitCommand
    rw [show (⟨lf⟩ : String).data = lf from rfl,
      splitCommandL_single hp.1 hp.2.1 hp.2.2.1 hp.2.2.2]
    rfl

theorem claim9_witness :
    subshellFree "  git status &&  ls -la | wc -l ".data = true ∧
    (splitCommand (String.intercalate " && "
        (splitCommand "  git status &&  ls -la | wc -l ")) =
      splitCommand "  git status &&  ls -la | wc -l " ∧
      ∀ f ∈ splitCommand "  git status &&  ls -la | wc -l ", splitCommand f = [f]) :=
  ⟨by decide, claim9_split_stable "  git status &&  ls -la | wc -l " (by decide)⟩

/-- C5, counterexample: the displayed output can still consist of a
directive line.  In `"COMMIT: a\n   COMMIT: a"` the first line is a
directive and is stripped; the second is not (its leading spaces keep the
anchored pattern from matching), but the final whitespace trim turns it
into the very text `COMMIT: a` — so the displayed body equals a COMMIT
line that also occurred as a (stripped) line of the input. -/
theorem claim5_counterexample :
    stripDirectives (some "COMMIT: a\n   COMMIT: a") = some "COMMIT: a" ∧
    directiveTest "COMMIT: a".data = true ∧
    "COMMIT: a".data ∈ splitLines ("COMMIT: a\n   COMMIT: a").data :=
  ⟨by decide, by decide, by decide⟩

/-- C5 (amended): the synthetic round-trip holds — commit message
`fix: x`, per-comment map `7 ↦ ok`, displayed body `Thanks!\nAll done.`
with neither directive line — and a lone surviving numbered bullet loses
its numeral prefix; in general every line matching the directive pattern
is removed by the line-filtering stage of `stripDirectives`, though the
later bullet renumbering or the final trim may still leave a displayed
line that reads as a directive (see the counterexample). -/
theorem claim5_directive_roundtrip :
    extractCommitMessage (some sampleReply) = some "fix: x" ∧
    extractPerCommentResponses (some sampleReply) = some [(7, "ok")] ∧
    stripDirectives (some sampleReply) = some "Thanks!\nAll done." ∧
    stripDirectives (some sampleBulletReply) = some "did the thing" ∧
    ∀ r l, l ∈ splitLines r → directiveTest l = true → l ∉ filteredLines r := by
  refine ⟨by decide, by decide, by decide, by decide, ?_⟩
  intro r l _ hdir hmem
  have h2 := (List.mem_filter.mp hmem).2
  rw [hdir] at h2
  exact Bool.noConfusion h2

theorem claim5_witness :
    "COMMIT: fix alpha".data ∈ splitLines ("COMMIT: fix alpha\nprose".data) ∧
    directiveTest "COMMIT: fix alpha".data = true ∧
    "COMMIT: fix alpha".data ∉ filteredLines ("COMMIT: fix alpha\nprose".data) :=
  ⟨by decide, by decide,
   claim5_directive_roundtrip.2.2.2.2 ("COMMIT: fix alpha\nprose".data)
     "COMMIT: fix alpha".data (by decide) (by decide)⟩

/-- C7: a recognized placeholder after `CLARIFICATION_NEEDED:` is treated
as absent while genuine question text is returned.  The general clause
computes `extractClarification` on any single-line answer `q` (no line
terminators, at least one non-space character): the answer is trimmed,
surrounding quote/backtick runs are stripped, and the result is `none`
exactly when nothing is left or when the lowercased text without trailing
`.`/`!` is a recognized placeholder, and otherwise the cleaned text
itself — in particular any non-placeholder question is returned non-null.
The concrete clauses instantiate placeholder and genuine cases, with
quoted, backticked, punctuated, upper-case and numbered-list variants. -/
theorem claim7_placeholder_clarifications :
    (∀ q : String, (∀ c ∈ q.data, isLineTerm c = false) →
      (∃ c ∈ q.data, isJsSpace c = false) →
      extractClarification (some ("CLARIFICATION_NEEDED: " ++ q)) =
        (if (trimL (stripQuoteRuns (trimL q.data))).isEmpty then none
         else if clarPlaceholders.contains
             ⟨normalizeAnswer (trimL (stripQuoteRuns (trimL q.data)))⟩ then none
         else some ⟨trimL (stripQuoteRuns (trimL q.data))⟩)) ∧
    extractClarification (some "CLARIFICATION_NEEDED: none") = none ∧
    extractClarification (some "CLARIFICATION_NEEDED: \"N/A.\"") = none ∧
    extractClarification (some "2. CLARIFICATION_NEEDED: `no clarification needed!`") =
      none ∧
    extractClarification (some "CLARIFICATION_NEEDED: NONE.") = none ∧
    extractClarification (some "CLARIFICATION_NEEDED: Should the new function be async?") =
      some "Should the new function be async?" ∧
    extractClarification
        (some "text\nCLARIFICATION_NEEDED: \"Which database should I target?\"\nmore") =
      some "Which database should I target?" := by
  refine ⟨?_, by decide, by decide, by decide, by decide, by decide, by decide⟩
  intro q hnl hws
  have h1 : tryKeyword "CLARIFICATION_NEEDED:".data
      ("CLARIFICATION_NEEDED: ".data ++ q.data) = some (' ' :: q.data) := rfl
  have h2 : matchTail (' ' :: q.data) =
      some (q.data.dropWhile isJsSpace,
        (q.data.dropWhile isJsSpace).dropWhile (fun c => !isLineTerm c)) := by
    unfold matchTail
    rw [show (' ' :: q.data).dropWhile isJsSpace = q.data.dropWhile isJsSpace from by
      rw [List.dropWhile_cons, if_pos (by decide)]]
    rw [if_neg (fun hv => dropWhile_ne_nil_of_mem hws (List.isEmpty_iff.mp hv))]
    have htw : (q.data.dropWhile isJsSpace).takeWhile (fun c => !isLineTerm c) =
        q.data.dropWhile isJsSpace :=
      takeWhile_eq_self_of_all fun c hc => by
        have hn := hnl c ((List.dropWhile_sublist isJsSpace).subset hc)
        show (!isLineTerm c) = true
        rw [hn]
        rfl
    rw [htw]
  have hmk : matchKeywordLine "CLARIFICATION_NEEDED:".data
      ("CLARIFICATION_NEEDED: " ++ q).data = some (trimL q.data) := by
    show matchKeywordLine "CLARIFICATION_NEEDED:".data
      ("CLARIFICATION_NEEDED: ".data ++ q.data) = some (trimL q.data)
    have hterm : ∀ c ∈ ("CLARIFICATION_NEEDED: ".data ++ q.data),
        isLineTerm c = false := by
      intro c hc
      rcases List.mem_append.mp hc with h0 | h0
      · exact (show ∀ x ∈ "CLARIFICATION_NEEDED: ".data, isLineTerm x = false by
          decide) c h0
      · exact hnl c h0
    unfold matchKeywordLine lineStarts
    rw [tailsAfterTerm_eq_nil hterm]
    simp only [List.findSome?_cons]
    rw [show (tryKeyword "CLARIFICATION_NEEDED:".data
        ("CLARIFICATION_NEEDED: ".data ++ q.data)).bind matchTail =
      some (q.data.dropWhile isJsSpace,
        (q.data.dropWhile isJsSpace).dropWhile (fun c => !isLineTerm c)) from by
      rw [h1]; exact h2]
    show some (trimL (q.data.dropWhile isJsSpace)) = some (trimL q.data)
    rw [trimL_dropWhile_left]
  have ht : (trimL q.data).isEmpty = false := by
    cases hv : (trimL q.data).isEmpty with
    | false => rfl
    | true => exact absurd (List.isEmpty_iff.mp hv) (trimL_ne_nil_of_mem hws)
  rw [extractClarification_shape ("CLARIFICATION_NEEDED: " ++ q) (trimL q.data)
    rfl hmk ht]

theorem claim7_witness :
    extractClarification (some ("CLARIFICATION_NEEDED: " ++ "Is this right?")) =
      (if (trimL (stripQuoteRuns (trimL "Is this right?".data))).isEmpty then none
       else if clarPlaceholders.contains
           ⟨normalizeAnswer (trimL (stripQuoteRuns (trimL "Is this right?".data)))⟩
       then none
       else some ⟨trimL (stripQuoteRuns (trimL "Is this right?".data))⟩) :=
  claim7_placeholder_clarifications.1 "Is this right?" (by decide) (by decide)

/-- C8: when the final response of a completed session yields neither a
clarification nor a COMMIT directive, reconciliation still proceeds to a
commit, whose message is the generic fallback, and that fallback contains
the decimal rendering of the session's PR number. -/
theorem claim8_fallback_commit (response : Option String) (pr : Nat)
    (hq : extractClarification response = none)
    (hc : extractCommitMessage response = none) :
    reconcileDecision response pr = .commit (fallbackCommitMessage pr) ∧
    containsSub (toString pr).data (fallbackCommitMessage pr).data = true := by
  constructor
  · unfold Buffalo.Poller.reconcileDecision
    rw [hq, hc]
    rfl
  · rw [containsSub_eq_true_iff]
    exact ⟨"buffalo: address PR #".data, " feedback".data, rfl⟩

theorem claim8_witness :
    reconcileDecision (some "All fixed, pushing now.") 42 =
      ReconcileAction.commit (fallbackCommitMessage 42) ∧
    containsSub (toString 42).data (fallbackCommitMessage 42).data = true :=
  claim8_fallback_commit (some "All fixed, pushing now.") 42 (by decide) (by decide)

/-- C2, counterexample: the invariant does not survive every transition.
Chain: a fresh session on branch `b`; the monitor reads an approval
prompt whose quoted command fails the (empty) whitelist, escalating to
`waiting_approval` with a pending approval (the invariant still holds
there); then the CLI `pause` command calls `pauseSession`, which sets
status `paused` without clearing `pendingApproval` — a non-null pending
approval on a session whose status is not `waiting_approval`. -/
theorem claim2_counterexample :
    storeInv (monitorSessionStore [] (freshSession [] "b" 1 [5] []) "b" true
      "`rm -rf /` ? (y/n)" 99) ∧
    ¬ storeInv ((pauseSession (monitorSessionStore [] (freshSession [] "b" 1 [5] [])
      "b" true "`rm -rf /` ? (y/n)" 99) "b").1) ∧
    ((getSession ((pauseSession (monitorSessionStore [] (freshSession [] "b" 1 [5] [])
      "b" true "`rm -rf /` ? (y/n)" 99) "b").1) "b").map
        (fun s => (s.status, s.pendingApproval.isSome)) =
      some (SessionStatus.paused, true)) :=
  ⟨by decide, by decide, by decide⟩

/-- C2 (amended): the invariant — pending approval present iff
`waiting_approval`, pending clarification present iff
`waiting_clarification`, at most one session per branch — is preserved by
session start, the new-comment dispatch, the poller's monitor step
(which skips waiting/paused sessions before `monitorSession` runs,
including its escalation writes), the clarification request (whose poller
call site only reaches sessions that are not `waiting_approval`),
`handleApproval`, `resumeSession` and `removeSession`; `pauseSession`
preserves the one-session-per-branch part but can break the
pending-approval biconditional by pausing a waiting session (see the
counterexample). -/
theorem claim2_invariant_preservation :
    (∀ (st : Store) (b : String) (pr : Nat) (ids : List Nat)
      (tr : List TriggerComment), storeInv st →
      storeInv (freshSession st b pr ids tr)) ∧
    (∀ (st : Store) (b : String) (pr : Nat) (ids : List Nat)
      (tr : List TriggerComment), storeInv st →
      storeInv (newCommentsUpdate st b pr ids tr)) ∧
    (∀ (patterns : List Pattern) (st : Store) (b : String) (le : Bool)
      (c : String) (cid : Nat), storeInv st →
      storeInv (pollMonitorStep patterns st b le c cid)) ∧
    (∀ (st : Store) (b q : String) (cid : Nat), storeInv st →
      (∀ s, getSession st b = some s →
        s.status ≠ SessionStatus.waiting_approval) →
      storeInv (setWaitingClarification st b q cid)) ∧
    (∀ (st : Store) (b : String) (a : ApprovalAction) (pat : Option String),
      storeInv st → storeInv (handleApproval st b a pat)) ∧
    (∀ (st : Store) (b : String), storeInv st →
      storeInv (resumeSession st b).1) ∧
    (∀ (st : Store) (b : String), storeInv st →
      storeInv (removeSession st b)) ∧
    (∀ (st : Store) (b : String), storeInv st →
      (((pauseSession st b).1).map Prod.fst).Nodup) :=
  ⟨fun _ b pr ids tr h => storeInv_freshSession h b pr ids tr,
   fun _ b pr ids tr h => storeInv_newCommentsUpdate h b pr ids tr,
   fun _ _ _ _ _ _ h => storeInv_pollMonitorStep h,
   fun _ _ q cid h hna => storeInv_setWaitingClarification h q cid hna,
   fun _ b a pat h => storeInv_handleApproval h b a pat,
   fun _ b h => storeInv_resumeSession h b,
   fun _ b h => storeInv_removeSession h b,
   fun _ b h => nodup_keys_pauseSession h b⟩

theorem claim2_witness :
    storeInv (monitorSessionStore [] (freshSession [] "b" 1 [5] []) "b" true
      "`rm -rf /` ? (y/n)" 99) ∧
    storeInv (handleApproval (monitorSessionStore [] (freshSession [] "b" 1 [5] [])
      "b" true "`rm -rf /` ? (y/n)" 99) "b" ApprovalAction.deny none) :=
  ⟨by decide, claim2_invariant_preservation.2.2.2.2.1
    (monitorSessionStore [] (freshSession [] "b" 1 [5] []) "b" true
      "`rm -rf /` ? (y/n)" 99) "b" ApprovalAction.deny none (by decide)⟩

/-- C3 (code bug): the completion-time resume-flag update of `pollRepo`
depends only on whether a reply was posted; the pushed commit, although
in scope, is never consulted, so after a completed session that both
pushed a commit and posted a reply the branch's flag is *true* — the
claim (and the doc comments in `session-store.ts`) say a commit push
clears it. -/
theorem claim3_resumable_despite_commit :
    (∀ (postedAny : Bool) (sha sha2 : Option String) (rs : ResumeState)
      (b : String),
      completionResumeUpdate postedAny sha rs b =
        completionResumeUpdate postedAny sha2 rs b) ∧
    (∀ (sha : String) (rs : ResumeState) (b : String),
      shouldResumeBranch (completionResumeUpdate true (some sha) rs b) b = true) := by
  refine ⟨fun _ _ _ _ _ => rfl, fun sha rs b => ?_⟩
  show (markBranchResumable rs b).contains b = true
  unfold markBranchResumable
  by_cases hc : rs.contains b = true
  · rw [if_pos hc]; exact hc
  · rw [if_neg hc]; simp

/-- C4, counterexample: the read cursor is also reset on a clarification
resume, which continues an existing session rather than starting a fresh
one.  Chain: fresh session, a monitor pass advances `logOffset` to 5, the
completed run asks for clarification (status `waiting_clarification`,
offset still 5), then the answering comment rebuilds the session with
`logOffset: 0` even though the pipe-pane log is appended, not
truncated. -/
theorem claim4_counterexample :
    ((getSession (setWaitingClarification (monitorSessionStore []
        (freshSession [] "b" 1 [5] []) "b" true "hello" 99) "b" "Which one?" 7)
      "b").map SessionInfo.logOffset = some 5) ∧
    ((getSession (setWaitingClarification (monitorSessionStore []
        (freshSession [] "b" 1 [5] []) "b" true "hello" 99) "b" "Which one?" 7)
      "b").map SessionInfo.status = some SessionStatus.waiting_clarification) ∧
    ((getSession (newCommentsUpdate (setWaitingClarification (monitorSessionStore []
        (freshSession [] "b" 1 [5] []) "b" true "hello" 99) "b" "Which one?" 7)
      "b" 1 [6] [⟨"u", "a"⟩]) "b").map SessionInfo.logOffset = some 0) :=
  ⟨by decide, by decide, by decide⟩

/-- C4 (amended): across monitor invocations the cursor is monotonically
non-decreasing as long as the log only grows (`logOffset ≤
content.length`, which the append-only `pipe-pane | cat >>` log
guarantees); it starts at zero on a fresh session start *and* is reset to
zero by a clarification resume of an existing session (see the
counterexample). -/
theorem claim4_offset_monotone :
    (∀ (patterns : List Pattern) (st : Store) (b : String) (content : String)
      (cid : Nat) (s s2 : SessionInfo),
      getSession st b = some s →
      s.logOffset ≤ content.data.length →
      getSession (monitorSessionStore patterns st b true content cid) b = some s2 →
      s.logOffset ≤ s2.logOffset) ∧
    (∀ (st : Store) (b : String) (pr : Nat) (ids : List Nat)
      (tr : List TriggerComment) (s : SessionInfo),
      getSession (freshSession st b pr ids tr) b = some s → s.logOffset = 0) ∧
    (∀ (st : Store) (b : String) (pr : Nat) (ids : List Nat)
      (tr : List TriggerComment) (ex s2 : SessionInfo),
      getSession st b = some ex →
      ex.status = SessionStatus.waiting_clarification →
      ex.pendingClarification ≠ none →
      getSession (newCommentsUpdate st b pr ids tr) b = some s2 →
      s2.logOffset = 0) := by
  refine ⟨fun patterns st b content cid s s2 hg hlen hg2 =>
      logOffset_monitorStore hg hlen hg2, ?_, ?_⟩
  · intro st b pr ids tr s hs
    unfold freshSession at hs
    rw [getSession_setSession] at hs
    injection hs with he
    rw [← he]
  · intro st b pr ids tr ex s2 hg hst hpc hs2
    simp only [newCommentsUpdate, hg] at hs2
    rw [if_pos ⟨hst, hpc⟩, getSession_setSession] at hs2
    injection hs2 with he
    rw [← he]

theorem claim4_witness :
    getSession (freshSession [] "b" 1 [5] []) "b" =
      some ⟨"b", 1, [5], some [], SessionStatus.running, 0, none, none⟩ ∧
    (0 : Nat) ≤ "hi".data.length ∧
    getSession (monitorSessionStore [] (freshSession [] "b" 1 [5] []) "b" true
        "hi" 9) "b" =
      some ⟨"b", 1, [5], some [], SessionStatus.running, 2, none, none⟩ ∧
    (0 : Nat) ≤ (2 : Nat) :=
  ⟨by decide, by decide, by decide,
   claim4_offset_monotone.1 [] (freshSession [] "b" 1 [5] []) "b" "hi" 9
     ⟨"b", 1, [5], some [], SessionStatus.running, 0, none, none⟩
     ⟨"b", 1, [5], some [], SessionStatus.running, 2, none, none⟩
     (by decide) (by decide) (by decide)⟩

end Buffalo.Claims
